import Mathlib

/-!
Verification of the CARMA comparable-vehicle retrieval and ranking engine
(`src/recommender_engine/autoscout-ml/src/api.py`) against its specification.

The Python source is shallowly embedded: machine floats are modelled as `ℚ`
(the service's arithmetic is plain field arithmetic; `math.exp` is kept
abstract as a function parameter, instantiated with `Real.exp` where a claim
depends on its analytic properties), optional values as `Option`, database
rows as a Lean structure, and the listings table as a `List Row` given in
`ORDER BY created_at DESC` order.  Unicode accent stripping
(`unicodedata.NFKD` + combining-mark removal) is modelled by a finite
character table covering the characters appearing in the repository's
vocabularies, and `str.lower` by the ASCII table; both are stated as tables so
that every lemma about them is decidable.
-/

namespace Carma

/-- Characters treated as whitespace by the model of `str.strip` and of the
regular-expression class `\s`. -/
def isWs (c : Char) : Bool :=
  c = ' ' || c = '\t' || c = '\n' || c = '\r' || c = '\x0b' || c = '\x0c'

/-- Model of Python `str.strip()` on a character list. -/
def trimChars (l : List Char) : List Char :=
  ((l.dropWhile isWs).reverse.dropWhile isWs).reverse

/-- Model of Python `str.strip()`. -/
def pyStrip (s : String) : String := ⟨trimChars s.data⟩

/-- Accent table modelling `strip_accents` (NFKD + combining-mark removal)
for the accented characters occurring in this repository's colour, fuel,
transmission and body vocabularies.  `ß` has no NFKD decomposition and is
deliberately absent (Python leaves it unchanged). -/
def accentPairs : List (Char × Char) :=
  [('ä', 'a'), ('ö', 'o'), ('ü', 'u'), ('Ä', 'A'), ('Ö', 'O'), ('Ü', 'U'),
   ('é', 'e'), ('è', 'e'), ('ê', 'e'), ('É', 'E'), ('à', 'a'), ('á', 'a'),
   ('í', 'i'), ('ó', 'o'), ('ú', 'u'), ('ç', 'c'), ('ñ', 'n')]

/-- Model of `strip_accents` on one character. -/
def charStrip (c : Char) : Char := (List.lookup c accentPairs).getD c

/-- ASCII lower-case table: the model of `str.lower` / SQL `LOWER`. -/
def lowerPairs : List (Char × Char) :=
  [('A', 'a'), ('B', 'b'), ('C', 'c'), ('D', 'd'), ('E', 'e'), ('F', 'f'),
   ('G', 'g'), ('H', 'h'), ('I', 'i'), ('J', 'j'), ('K', 'k'), ('L', 'l'),
   ('M', 'm'), ('N', 'n'), ('O', 'o'), ('P', 'p'), ('Q', 'q'), ('R', 'r'),
   ('S', 's'), ('T', 't'), ('U', 'u'), ('V', 'v'), ('W', 'w'), ('X', 'x'),
   ('Y', 'y'), ('Z', 'z')]

/-- Model of `str.lower` on one character. -/
def charLower (c : Char) : Char := (List.lookup c lowerPairs).getD c

/-- Model of `strip_accents(s)`. -/
def stripAccents (s : String) : String := ⟨s.data.map charStrip⟩

/-- Model of `strip_accents(s).lower()`, the comparison form used throughout
the service for categorical equality. -/
def stripLower (s : String) : String := ⟨(s.data.map charStrip).map charLower⟩

/-- Model of `s.lower().strip()` composed as SQL `LOWER(TRIM(col))`. -/
def sqlLowerTrim (s : String) : String := ⟨trimChars (s.data.map charLower)⟩

/-- Replace each hyphen by a space (`lowered.replace("-", " ")`). -/
def replaceDash (l : List Char) : List Char :=
  l.map fun c => if c = '-' then ' ' else c

/-- Maximal runs of non-whitespace characters, in order: the words of the
string.  `collapseWs` rebuilds the string from them, which models
`re.sub(r"\s+", " ", s).strip()`. -/
def wordsAux : List Char → List Char → List (List Char)
  | [], acc => if acc.isEmpty then [] else [acc.reverse]
  | c :: rest, acc =>
    if isWs c then
      if acc.isEmpty then wordsAux rest [] else acc.reverse :: wordsAux rest []
    else wordsAux rest (c :: acc)

/-- Join words with single spaces. -/
def joinWords : List (List Char) → List Char
  | [] => []
  | [w] => w
  | w :: ws => w ++ ' ' :: joinWords ws

/-- Model of `re.sub(r"\s+", " ", s).strip()`. -/
def collapseWs (l : List Char) : List Char := joinWords (wordsAux l [])

/-- The preprocessing pipeline of `normalize_color`:
`strip_accents(text).lower()`, hyphens to spaces, whitespace collapsed. -/
def colorKey (s : String) : String :=
  ⟨collapseWs (replaceDash ((s.data.map charStrip).map charLower))⟩

/-- Model of `normalize_text`: strip, `None` when empty. -/
def normalizeText (v : Option String) : Option String :=
  match v with
  | none => none
  | some s => let t := pyStrip s; if t = "" then none else some t

/-- The curated colour synonym table `COLOR_CANONICAL_MAP`, verbatim. -/
def COLOR_CANONICAL_MAP : List (String × String) :=
  [("weiss", "white"), ("weiß", "white"), ("weiß metallic", "white"),
   ("weiss metallic", "white"), ("white", "white"), ("candy white", "white"),
   ("polar white", "white"), ("pure white", "white"), ("alpinweiss", "white"),
   ("alpine white", "white"), ("blanc", "white"), ("bianco", "white"),
   ("schwarz", "black"), ("schwarz metallic", "black"), ("black", "black"),
   ("deep black", "black"), ("noir", "black"), ("nero", "black"),
   ("grau", "gray"), ("grau metallic", "gray"), ("graphit", "gray"),
   ("graphite", "gray"), ("grey", "gray"), ("gris", "gray"),
   ("anthrazit", "gray"), ("anthracite", "gray"),
   ("blau", "blue"), ("azul", "blue"), ("bleu", "blue"), ("blu", "blue"),
   ("rot", "red"), ("rosso", "red"), ("rouge", "red"),
   ("silber", "silver"), ("silber metallic", "silver"), ("silver", "silver"),
   ("argent", "silver"),
   ("grun", "green"), ("grün", "green"), ("verde", "green"), ("vert", "green"),
   ("braun", "brown"), ("marron", "brown"), ("bruin", "brown"),
   ("beige", "beige"), ("sand", "beige"), ("creme", "beige"),
   ("orange", "orange"),
   ("gelb", "yellow"), ("amarillo", "yellow"), ("giallo", "yellow")]

/-- The keyword fallback table `COLOR_KEYWORD_MAP`, verbatim, in iteration
order. -/
def COLOR_KEYWORD_MAP : List (String × List String) :=
  [("white", ["weiss", "weiß", "white", "bianco", "blanc", "blanco", "alpin",
              "arctic", "polar", "candy", "pure white", "snow"]),
   ("black", ["schwarz", "black", "noir", "nero", "obsidian", "midnight",
              "deep black", "onyx"]),
   ("gray", ["grau", "grau metallic", "gray", "gris", "anthracite", "graphit",
             "graphite", "slate"]),
   ("blue", ["blau", "bleu", "blu", "azul", "blue", "navy", "ocean"]),
   ("red", ["rot", "rosso", "rouge", "red", "crimson"]),
   ("silver", ["silber", "silver", "argent", "platinum", "platino"]),
   ("green", ["grun", "gruen", "grün", "verde", "vert", "green"]),
   ("brown", ["braun", "marron", "brown", "bruin", "bronze"]),
   ("beige", ["beige", "sand", "creme", "champagne", "ivory"]),
   ("orange", ["orange", "sunset"]),
   ("yellow", ["gelb", "giallo", "amarillo", "yellow"])]

/-- Substring test: does `needle` occur contiguously in `hay` (Python
`needle in hay`)? -/
def subOccurs : List Char → List Char → Bool
  | needle, [] => needle.isEmpty
  | needle, c :: t => needle.isPrefixOf (c :: t) || subOccurs needle t

/-- Split on any of `/`, `,`, `;`, `" und "`, `" with "`, modelling
`re.split(r"[\/,;]| und | with ", lowered)`. -/
def partsAux : List Char → List Char → List (List Char)
  | [], acc => [acc.reverse]
  | c :: rest, acc =>
    if c = '/' || c = ',' || c = ';' then acc.reverse :: partsAux rest []
    else if (" und ".data).isPrefixOf (c :: rest) then
      acc.reverse :: partsAux ((c :: rest).drop 5) []
    else if (" with ".data).isPrefixOf (c :: rest) then
      acc.reverse :: partsAux ((c :: rest).drop 6) []
    else partsAux rest (c :: acc)
  termination_by l _ => l.length
  decreasing_by
    all_goals simp_arith [List.length_drop]

/-- The composite-value loop of `normalize_color`: first stripped nonempty
part found in the synonym table. -/
def partLookup : List (List Char) → Option String
  | [] => none
  | p :: ps =>
    let part := trimChars p
    if part.isEmpty then partLookup ps
    else
      match List.lookup (⟨part⟩ : String) COLOR_CANONICAL_MAP with
      | some c => some c
      | none => partLookup ps

/-- Scan of the keyword table in iteration order: first canonical colour one
of whose keywords occurs in the lowered text. -/
def keywordScanGo (lowered : List Char) : List (String × List String) → Option String
  | [] => none
  | (canon, kws) :: rest =>
    if kws.any (fun k => subOccurs k.data lowered) then some canon
    else keywordScanGo lowered rest

/-- The keyword-scan fallback of `normalize_color`. -/
def keywordScan (lowered : List Char) : Option String :=
  keywordScanGo lowered COLOR_KEYWORD_MAP

/-- Model of `normalize_color`, line for line: normalise text, canonical
lookup, composite split, keyword scan, literal fallback. -/
def normalizeColor (v : Option String) : Option String :=
  match normalizeText v with
  | none => none
  | some text =>
    let lowered := colorKey text
    match List.lookup lowered COLOR_CANONICAL_MAP with
    | some c => some c
    | none =>
      match partLookup (partsAux lowered.data []) with
      | some c => some c
      | none =>
        match keywordScan lowered.data with
        | some c => some c
        | none => some lowered

/-- The fuel synonym table `FUEL_MAP`, verbatim. -/
def FUEL_MAP : List (String × String) :=
  [("benzin", "petrol"), ("elektro", "electric"), ("diesel", "diesel"),
   ("elektro/benzin", "hybrid"), ("plugin-hybrid", "plug-in hybrid"),
   ("hybrid", "hybrid"), ("lpg", "lpg"), ("cng", "cng")]

/-- The transmission synonym table `TRANSMISSION_MAP`, verbatim. -/
def TRANSMISSION_MAP : List (String × String) :=
  [("automatik", "automatic"), ("schaltgetriebe", "manual"),
   ("manuell", "manual"), ("tiptronic", "automatic")]

/-- The body-type synonym table `BODY_TYPE_MAP`, verbatim. -/
def BODY_TYPE_MAP : List (String × String) :=
  [("suv/geländewagen/pickup", "suv"), ("geländewagen", "suv"), ("suv", "suv"),
   ("limousine", "sedan"), ("kombi", "wagon"), ("coupe", "coupe"),
   ("coupé", "coupe"), ("cabrio", "convertible"), ("kabriolett", "convertible"),
   ("kastenwagen hochdach", "van"), ("kastenwagen", "van"),
   ("transporter", "van"), ("van", "van"), ("kleinwagen", "hatchback"),
   ("schräghecklimousine", "hatchback")]

/-- Model of `normalize_category`: strip/lower then table lookup; an unknown
key yields the lowercased literal. -/
def normalizeCategory (v : Option String) (m : List (String × String)) :
    Option String :=
  match normalizeText v with
  | none => none
  | some t => let key := stripLower t; some ((List.lookup key m).getD key)

/-- Digits of a string, in order (`REGEXP_REPLACE(s, '[^0-9]', '', 'g')` and
equally the digit filter of `normalise_price` / `normalise_mileage`). -/
def digitsOf (s : String) : List Char := s.data.filter Char.isDigit

/-- Value of a digit string. -/
def digitsToNat (l : List Char) : ℕ := l.foldl (fun n c => n * 10 + (c.toNat - 48)) 0

/-- The store's numeric coercion of a free-form text column: digits kept, cast
to a number, `NULL` when no digit remains.  `normalise_price` and
`normalise_mileage` perform the same digit filter Python-side, so the
`price_num or price` fallbacks collapse to this one function. -/
def sqlNum (v : Option String) : Option ℚ :=
  match v with
  | none => none
  | some s => let d := digitsOf s; if d.isEmpty then none else some (digitsToNat d : ℚ)

/-- Split on `-` (and `/`, which `extract_year` first rewrites to `-`),
keeping empty pieces as Python `str.split` does. -/
def splitYearTokens : List Char → List Char → List (List Char)
  | [], acc => [acc.reverse]
  | c :: rest, acc =>
    if c = '-' || c = '/' then acc.reverse :: splitYearTokens rest []
    else splitYearTokens rest (c :: acc)

/-- Model of `extract_year`: replace `/` by `-`, split on `-`, first 4-digit
token. -/
def extractYear (raw : Option String) : Option ℕ :=
  match raw with
  | none => none
  | some s =>
    (splitYearTokens s.data []).findSome? fun tok =>
      if tok.length = 4 && tok.all Char.isDigit then some (digitsToNat tok)
      else none

/-- A row of `vehicle_marketplace.vehicle_data`, restricted to the columns the
core reads.  Free-form numeric columns (`price`, `mileage_km`) are carried as
text, as the adapter's SQL coercions assume; `power_kw` is carried as a number
(the query casts it).  Timestamps are rationals measured in days. -/
structure Row where
  vehicleId : String
  listingUrl : Option String := none
  price : Option String := none
  mileageKm : Option String := none
  firstRegistrationRaw : Option String := none
  make : Option String := none
  model : Option String := none
  fuelType : Option String := none
  transmission : Option String := none
  bodyType : Option String := none
  color : Option String := none
  interiorColor : Option String := none
  upholsteryColor : Option String := none
  description : Option String := none
  dataSource : Option String := none
  powerKw : Option ℚ := none
  images : List String := []
  isAvailable : Bool := true
  createdAt : Option ℚ := none
  updatedAt : Option ℚ := none
deriving DecidableEq, Repr, Inhabited

/-- Python truthiness of an optional string (`if s:`). -/
def truthyStr (o : Option String) : Bool :=
  match o with
  | some s => !(s = "")
  | none => false

/-- The target attributes `find_candidate_rows` extracts before its relaxation
loop. -/
structure TargetCtx where
  vid : String
  tmake : String
  tmodel : String
  bodyRaw : Option String
  fuelRaw : Option String
  transRaw : Option String
  tcolor : Option String
  tprice : Option ℚ
  tmileage : Option ℚ
  tpower : Option ℚ
  tyear : Option ℕ
deriving DecidableEq, Repr

/-- Prologue of `find_candidate_rows`; `none` exactly when make or model is
missing (the function's early error return). -/
def mkTargetCtx (targetRow : Row) (targetYear : Option ℕ) : Option TargetCtx :=
  match normalizeText targetRow.make, normalizeText targetRow.model with
  | some mk, some md =>
    some { vid := targetRow.vehicleId, tmake := mk, tmodel := md,
           bodyRaw := targetRow.bodyType, fuelRaw := targetRow.fuelType,
           transRaw := targetRow.transmission,
           tcolor := normalizeColor targetRow.color,
           tprice := sqlNum targetRow.price,
           tmileage := sqlNum targetRow.mileageKm,
           tpower := targetRow.powerKw,
           tyear := targetYear }
  | _, _ => none

/-- The colour hard lock is active only when the normalised target colour is
truthy (`if target_color:`). -/
def effColorLock (t : TargetCtx) : Option String :=
  match t.tcolor with
  | some s => if s = "" then none else some s
  | none => none

/-- One soft-lock configuration of the relaxation ladder. -/
structure Attempt where
  name : String
  yearTol : ℕ
  mileageTol : ℚ
  priceMin : ℚ
  priceMax : ℚ
  powerTol : ℚ
deriving DecidableEq, Repr

/-- The five-step relaxation ladder of `find_candidate_rows`, verbatim. -/
def relaxationAttempts : List Attempt :=
  [{ name := "strict", yearTol := 2, mileageTol := 0.5,
     priceMin := 0.6, priceMax := 1.4, powerTol := 0.15 },
   { name := "relaxed_year", yearTol := 3, mileageTol := 0.5,
     priceMin := 0.6, priceMax := 1.4, powerTol := 0.15 },
   { name := "relaxed_mileage", yearTol := 3, mileageTol := 0.75,
     priceMin := 0.6, priceMax := 1.4, powerTol := 0.15 },
   { name := "relaxed_price", yearTol := 3, mileageTol := 0.75,
     priceMin := 0.5, priceMax := 1.5, powerTol := 0.15 },
   { name := "relaxed_power", yearTol := 3, mileageTol := 0.75,
     priceMin := 0.5, priceMax := 1.5, powerTol := 0.25 }]

/-- SQL hard lock on a raw categorical column: `LOWER(TRIM(col)) = %s` with the
accent-stripped lowercase target value, added only when the target's raw value
is truthy; a NULL column never satisfies the equality. -/
def condRawCat (traw : Option String) (craw : Option String) : Bool :=
  match traw with
  | none => true
  | some b =>
    if b = "" then true
    else
      match craw with
      | some cb => decide (sqlLowerTrim cb = stripLower b)
      | none => false

/-- SQL soft lock `numeric BETWEEN lo AND hi`, added only when the target
value is truthy and positive; a NULL operand fails the predicate. -/
def condRange (tval : Option ℚ) (lo hi : ℚ → ℚ) (cval : Option ℚ) : Bool :=
  match tval with
  | none => true
  | some m =>
    if 0 < m then
      match cval with
      | some v => decide (lo m ≤ v) && decide (v ≤ hi m)
      | none => false
    else true

/-- The composed SQL WHERE clause of one relaxation attempt. -/
def sqlPred (t : TargetCtx) (a : Attempt) (c : Row) : Bool :=
  c.isAvailable &&
  !(c.vehicleId = t.vid) &&
  (c.make == some t.tmake) &&
  (c.model == some t.tmodel) &&
  condRawCat t.bodyRaw c.bodyType &&
  condRawCat t.fuelRaw c.fuelType &&
  condRawCat t.transRaw c.transmission &&
  (if (effColorLock t).isSome then
     match c.color with
     | some s => !(s = "")
     | none => false
   else true) &&
  condRange t.tmileage (fun m => m * (1 - a.mileageTol)) (fun m => m * (1 + a.mileageTol))
    (sqlNum c.mileageKm) &&
  condRange t.tprice (fun m => m * a.priceMin) (fun m => m * a.priceMax)
    (sqlNum c.price) &&
  condRange t.tpower (fun m => m * (1 - a.powerTol)) (fun m => m * (1 + a.powerTol))
    c.powerKw

/-- The Python-side colour (hard) and year (soft) filters applied to each
fetched row. -/
def pyPred (t : TargetCtx) (a : Attempt) (c : Row) : Bool :=
  (match effColorLock t with
   | some tc => normalizeColor c.color == some tc
   | none => true) &&
  (match t.tyear with
   | none => true
   | some ty =>
     if ty = 0 then true
     else
       match extractYear c.firstRegistrationRaw with
       | some cy => decide (((cy : ℤ) - ty).natAbs ≤ a.yearTol)
       | none => false)

/-- Kept rows of one relaxation attempt: SQL filter over the recency-ordered
table, `LIMIT candidate_limit`, then the Python-side colour/year filter. -/
def stepRows (db : List Row) (t : TargetCtx) (limit : ℕ) (a : Attempt) : List Row :=
  ((db.filter (sqlPred t a)).take limit).filter (pyPred t a)

/-- Debug envelope mirroring the dictionaries `find_candidate_rows` returns:
selected attempt, per-step kept counts, `warning` presence, and the two error
kinds (missing make/model; no candidates). -/
structure RetrievalDebug where
  selectedAttempt : Option String
  stepCounts : List (String × ℕ)
  warningFlag : Bool
  errorMissingMakeModel : Bool
  errorNoCandidates : Bool
deriving DecidableEq, Repr

/-- The best-result tracker of the relaxation loop: a strictly greater kept
count replaces the tracked best (`len(filtered_rows) > len(best_result[0])`). -/
def bestStep (db : List Row) (t : TargetCtx) (limit : ℕ)
    (b : Option (List Row × String)) (a : Attempt) : Option (List Row × String) :=
  let rows := stepRows db t limit a
  match b with
  | none => some (rows, a.name)
  | some (bRows, bName) =>
    if bRows.length < rows.length then some (rows, a.name) else some (bRows, bName)

/-- The relaxation loop: per attempt compute kept rows, log the count, track
the best-populated attempt, return immediately at the first attempt reaching
`min_results`; afterwards return the best attempt when nonempty, else the
not-found error. -/
def retrieveLoop (db : List Row) (t : TargetCtx) (limit minResults : ℕ) :
    List Attempt → Option (List Row × String) → List (String × ℕ) →
    List Row × RetrievalDebug
  | [], best, logs =>
    (match best with
     | some (bRows, bName) =>
       if 0 < bRows.length then
         (bRows, ⟨some bName, logs, true, false, false⟩)
       else ([], ⟨none, logs, false, false, true⟩)
     | none => ([], ⟨none, logs, false, false, true⟩))
  | a :: rest, best, logs =>
    let rows := stepRows db t limit a
    let logs' := logs ++ [(a.name, rows.length)]
    let best' := bestStep db t limit best a
    if minResults ≤ rows.length then
      (rows, ⟨some a.name, logs', false, false, false⟩)
    else retrieveLoop db t limit minResults rest best' logs'

/-- Model of `find_candidate_rows`. -/
def findCandidateRows (db : List Row) (targetRow : Row) (targetYear : Option ℕ)
    (candidateLimit minResults : ℕ) : List Row × RetrievalDebug :=
  match mkTargetCtx targetRow targetYear with
  | none => ([], ⟨none, [], false, true, false⟩)
  | some t => retrieveLoop db t candidateLimit minResults relaxationAttempts none []

/-- Normalised per-listing view produced by `format_vehicle_payload`.  The
timestamp-derived fields (`age_months`, `freshness_days`) depend on the wall
clock and are carried as data; `freshnessDaysOf` below models their
computation against an explicit `now`. -/
structure Payload where
  id : Option String := none
  priceEur : Option ℚ := none
  mileageKm : Option ℚ := none
  year : Option ℕ := none
  ageMonths : Option ℚ := none
  make : Option String := none
  model : Option String := none
  fuelGroup : Option String := none
  transmissionGroup : Option String := none
  bodyGroup : Option String := none
  colorRaw : Option String := none
  colorCanonical : Option String := none
  bodyTypeRaw : Option String := none
  fuelTypeRaw : Option String := none
  transmissionRaw : Option String := none
  description : String := ""
  powerKw : Option ℚ := none
  images : List String := []
  freshnessDays : Option ℚ := none
deriving DecidableEq, Repr, Inhabited

/-- Python falsy-or on optional strings (`a or b`). -/
def falsyOr (a b : Option String) : Option String :=
  match a with
  | some s => if s = "" then b else some s
  | none => b

/-- Effective body group in `_categorical_similarity`
(`target.get("body_group") or normalize_category(target.get("body_type"), ...)`). -/
def effBody (p : Payload) : Option String :=
  falsyOr p.bodyGroup (normalizeCategory p.bodyTypeRaw BODY_TYPE_MAP)

/-- Effective fuel group. -/
def effFuel (p : Payload) : Option String :=
  falsyOr p.fuelGroup (normalizeCategory p.fuelTypeRaw FUEL_MAP)

/-- Effective transmission group. -/
def effTrans (p : Payload) : Option String :=
  falsyOr p.transmissionGroup (normalizeCategory p.transmissionRaw TRANSMISSION_MAP)

/-- Effective canonical colour. -/
def effColor (p : Payload) : Option String :=
  falsyOr p.colorCanonical (normalizeColor p.colorRaw)

/-- Model of `SimilarityEngine._norm_value`. -/
def normValue (v : Option String) : Option String :=
  (normalizeText v).map stripLower

/-- Per-field categorical score `cat_score`: 0.5 on a missing side, else 1 or
0 by accent-stripped lowercase equality. -/
def catScore (a b : Option String) : ℚ :=
  match a, b with
  | some x, some y => if stripLower x = stripLower y then 1 else 0
  | _, _ => 1/2

/-- The make-and-model component: 0.5 when any of the four values is missing,
else 1 only when both make and model match. -/
def mmScore (t c : Payload) : ℚ :=
  match normValue t.make, normValue t.model, normValue c.make, normValue c.model with
  | some tm, some tmo, some cm, some cmo =>
    if tm = cm ∧ tmo = cmo then 1 else 0
  | _, _, _, _ => 1/2

/-- Model of `SimilarityEngine._categorical_similarity` (score component):
hardcoded weights 0.25 / 0.20 / 0.20 / 0.15 / 0.20, accumulated and divided by
their total. -/
def categoricalSimilarity (t c : Payload) : ℚ :=
  let ws := 0.25 * mmScore t c
    + 0.20 * catScore (effBody t) (effBody c)
    + 0.20 * catScore (effFuel t) (effFuel c)
    + 0.15 * catScore (effTrans t) (effTrans c)
    + 0.20 * catScore (effColor t) (effColor c)
  let wt : ℚ := 0.25 + 0.20 + 0.20 + 0.15 + 0.20
  if 0 < wt then ws / wt else 1/2

/-- The tolerance dictionary assembled by the request handler. -/
structure Tolerances where
  yearTolYears : ℚ := 2
  mileageTolR : ℚ := 2
  mileageMinW : ℚ := 5000
  powerTolR : ℚ := 0.15
  powerMinW : ℚ := 15
  rankAlpha : ℚ := 0.55
  rankBeta : ℚ := 0.30
  rankFresh : ℚ := 0.10
  rankTrust : ℚ := 0.05
deriving DecidableEq, Repr, Inhabited

/-- Model of `SimilarityEngine._bounded_similarity`. -/
def boundedSimilarity (diff window : ℚ) : ℚ :=
  if window ≤ 0 then 1/2 else max 0 (min 1 (1 - diff / window))

/-- Model of `SimilarityEngine._numeric_similarity` (score component), weights
age 0.40 / mileage 0.40 / power 0.20. -/
def numericSimilarity (tol : Tolerances) (t c : Payload) : ℚ :=
  let yearTol := max tol.yearTolYears 0.1 * 12
  let mRatio := max tol.mileageTolR 0.01
  let mMin := max tol.mileageMinW 0
  let pRatio := max tol.powerTolR 0.01
  let pMin := max tol.powerMinW 0
  let ageScore :=
    match t.ageMonths, c.ageMonths with
    | some ta, some ca => boundedSimilarity |ca - ta| (max yearTol 1)
    | _, _ => (1/2 : ℚ)
  let mileScore :=
    match t.mileageKm, c.mileageKm with
    | some tm, some cm =>
      let w := max (|tm| * mRatio) mMin
      boundedSimilarity |cm - tm| (if 0 < w then w else if mMin = 0 then 1 else mMin)
    | _, _ => (1/2 : ℚ)
  let powScore :=
    match t.powerKw, c.powerKw with
    | some tp, some cp =>
      let w := max (|tp| * pRatio) pMin
      boundedSimilarity |cp - tp| (if 0 < w then w else if pMin = 0 then 1 else pMin)
    | _, _ => (1/2 : ℚ)
  (0.4 * ageScore + 0.4 * mileScore + 0.2 * powScore) / (0.4 + 0.4 + 0.2)

/-- Word characters of the regex class `\w` (ASCII model). -/
def wordChar (c : Char) : Bool := c.isAlphanum || c = '_'

/-- The token stopword set, verbatim. -/
def STOPWORDS : List String :=
  ["der", "die", "das", "und", "oder", "mit", "ein", "eine", "den", "von",
   "für", "auf", "zum", "zur", "the", "and", "for", "with", "einmal"]

/-- Maximal runs of characters satisfying `keep` (used to model splitting on
the complement class). -/
def runsAux (keep : Char → Bool) : List Char → List Char → List (List Char)
  | [], acc => if acc.isEmpty then [] else [acc.reverse]
  | c :: rest, acc =>
    if keep c then runsAux keep rest (c :: acc)
    else if acc.isEmpty then runsAux keep rest []
    else acc.reverse :: runsAux keep rest []

/-- Model of `tokenize_text`: strip accents, lowercase, split on non-word
characters, drop stopwords and short non-numeric tokens; set semantics via
first-occurrence dedup. -/
def tokenizeText (s : String) : List String :=
  let toks := (runsAux wordChar (stripLower s).data []).map fun l => (⟨l⟩ : String)
  (toks.filter fun t =>
    !(STOPWORDS.contains t) && (decide (2 < t.length) || t.data.all Char.isDigit)).dedup

/-- Word boundary before a position, given the previous character. -/
def boundaryL (prev : Option Char) : Bool :=
  match prev with
  | none => true
  | some p => !wordChar p

/-- Word boundary after a phrase ending in a word character, given the rest of
the text. -/
def boundaryR (l : List Char) : Bool :=
  match l with
  | [] => true
  | c :: _ => !wordChar c

/-- Does `phrase` start here with word boundaries on both sides? -/
def phraseAt (phrase : List Char) (prev : Option Char) (l : List Char) : Bool :=
  boundaryL prev && phrase.isPrefixOf l && boundaryR (l.drop phrase.length)

/-- Bounded occurrence of a literal phrase anywhere in the text. -/
def occursBounded (phrase : List Char) : Option Char → List Char → Bool
  | prev, [] => phraseAt phrase prev []
  | prev, c :: t => phraseAt phrase prev (c :: t) || occursBounded phrase (some c) t

/-- Convenience wrapper for `occursBounded` from the start of the text. -/
def hasPhrase (phrase : String) (text : List Char) : Bool :=
  occursBounded phrase.data none text

/-- Any of several bounded literal phrases. -/
def hasAnyPhrase (ps : List String) (text : List Char) : Bool :=
  ps.any fun p => hasPhrase p text

/-- Occurrence of `w1` (with left boundary) followed by optional whitespace
and one of `alts` (with right boundary): the `X\s*Y` regex shape. -/
def occursCombo (w1 : List Char) (alts : List String) : Option Char → List Char → Bool
  | _, [] => false
  | prev, c :: t =>
    (boundaryL prev && w1.isPrefixOf (c :: t) &&
      (let rest := ((c :: t).drop w1.length).dropWhile isWs
       alts.any fun w2 => (w2.data).isPrefixOf rest && boundaryR (rest.drop w2.length))) ||
    occursCombo w1 alts (some c) t

/-- The `camera_360` pattern `\b360\s*(?:grad|camera|kamera|°)\b`.  After the
non-word character `°` the trailing `\b` is satisfied only by a following word
character. -/
def match360 : Option Char → List Char → Bool
  | _, [] => false
  | prev, c :: t =>
    (boundaryL prev && ("360".data).isPrefixOf (c :: t) &&
      (let rest := ((c :: t).drop 3).dropWhile isWs
       (["grad", "camera", "kamera"].any fun w =>
          (w.data).isPrefixOf rest && boundaryR (rest.drop w.length)) ||
       (("°".data).isPrefixOf rest &&
        match rest.drop 1 with
        | c2 :: _ => wordChar c2
        | [] => false))) ||
    match360 (some c) t

/-- The `dab_plus` pattern `\bdab\+?\b`: either a bounded `dab`, or `dab+`
followed by a word character (the trailing `\b` after `+`). -/
def matchDab : Option Char → List Char → Bool
  | _, [] => false
  | prev, c :: t =>
    (boundaryL prev && ("dab".data).isPrefixOf (c :: t) &&
      (boundaryR ((c :: t).drop 3) ||
       (match (c :: t).drop 3 with
        | '+' :: c2 :: _ => wordChar c2
        | _ => false))) ||
    matchDab (some c) t

/-- Model of `extract_option_features` over the lowered text, pattern by
pattern in `OPTION_PATTERNS` order. -/
def extractOptionFeatures (l : List Char) : List String :=
  (([("adaptive_cruise_control",
      hasAnyPhrase ["acc", "adaptive cruise", "adaptiver cruise",
                    "abstandsregeltempomat", "distronic"] l),
     ("camera_360", match360 none l),
     ("carplay_android_auto",
      hasPhrase "carplay" l || occursCombo ("android".data) ["auto"] none l ||
      occursCombo ("apple".data) ["carplay"] none l),
     ("heated_seats", hasAnyPhrase ["sitzheizung", "heated seats", "heated seat"] l),
     ("matrix_led", occursCombo ("matrix".data) ["led"] none l),
     ("panoramic_roof", hasAnyPhrase ["panoramadach", "panorama dach", "panoramic roof"] l),
     ("dab_plus", matchDab none l),
     ("park_assist",
      hasAnyPhrase ["parkassist", "parkpilot", "parkhilfe", "parktronic",
                    "parkdistance"] l)] : List (String × Bool)).filter
    (fun kb => kb.2)).map fun kb => kb.1

/-- Token and option-feature sets of a description. -/
structure TextProfile where
  tokens : List String
  features : List String
deriving DecidableEq, Repr, Inhabited

/-- Model of `build_text_profile`. -/
def buildTextProfile (s : String) : TextProfile :=
  { tokens := tokenizeText s, features := extractOptionFeatures (stripLower s).data }

/-- Cardinality of the intersection of two duplicate-free lists. -/
def interCount (a b : List String) : ℕ := (a.filter fun x => b.contains x).length

/-- Cardinality of the union of two duplicate-free lists. -/
def unionCount (a b : List String) : ℕ :=
  a.length + (b.filter fun x => !(a.contains x)).length

/-- Model of `SimilarityEngine._textual_similarity` (score component):
Jaccard overlaps, 0.5 on an empty union, weights feature 0.60 / token 0.40. -/
def textualSimilarity (tp cp : TextProfile) : ℚ :=
  let tokU := unionCount tp.tokens cp.tokens
  let tokOv : ℚ := if tokU = 0 then 1/2 else (interCount tp.tokens cp.tokens : ℚ) / tokU
  let featU := unionCount tp.features cp.features
  let featOv : ℚ := if featU = 0 then 1/2 else (interCount tp.features cp.features : ℚ) / featU
  0.6 * featOv + 0.4 * tokOv

/-- Model of `SimilarityEngine.score`: the clamped 0.45 / 0.25 / 0.30 blend of
the three axes. -/
def similarityScore (tol : Tolerances) (t c : Payload) (tp cp : TextProfile) : ℚ :=
  max 0 (min 1 (0.45 * categoricalSimilarity t c
    + 0.25 * numericSimilarity tol t c
    + 0.30 * textualSimilarity tp cp))

/-- The logistic shape `1.0 / (1.0 + math.exp(-6 * x))` used by both deal
sub-scores, generic in the exponential. -/
def sigmoid6 {K : Type} [LinearOrderedField K] (expf : K → K) (x : K) : K :=
  1 / (1 + expf (-(6 * x)))

/-- The comparable sub-score before the mileage adjustment: clamped
`1 - percentile`, overridden by the cohort-median sigmoid when a positive
median exists. -/
def compsBase {K : Type} [LinearOrderedField K] (expf : K → K)
    (p : K) (percentile medianPrice : Option K) : K :=
  let c0 : K :=
    match percentile with
    | none => 1/2
    | some pc => max 0 (min 1 (1 - pc))
  match medianPrice with
  | some m => if 0 < m then sigmoid6 expf ((m - p) / m) else c0
  | none => c0

/-- The mileage adjustment applied to the comparable sub-score: with ratio
`r = (cand - target)/max(target, 1)`, subtract `min(r/1.5, 1)*0.25` when
`r > 0`, else add `min(|r|/1.5, 1)*0.15`; skipped when either mileage is
falsy. -/
def mileageAdjust {K : Type} [LinearOrderedField K] (base : K)
    (targetMileage candMileage : Option K) : K :=
  match targetMileage, candMileage with
  | some tm, some cm =>
    if tm = 0 ∨ cm = 0 then base
    else
      let r := (cm - tm) / max tm 1
      if 0 < r then base - min (r / (3/2)) 1 * (1/4)
      else base + min (|r| / (3/2)) 1 * (3/20)
  | _, _ => base

/-- Model of `compute_deal_score`, generic in the ordered field and in the
exponential so that it can be read both exactly over `ℚ` (where a claim does
not depend on `exp`) and over `ℝ` with `Real.exp`.  Returns
`(deal, comparable, hedonic)` — the clamped blend and the two sub-components
exposed in the details dictionary. -/
def computeDealScore {K : Type} [LinearOrderedField K] (expf : K → K)
    (price percentile medianPrice targetPrice targetMileage candMileage : Option K) :
    K × K × K :=
  match price with
  | none => (1/2, 1/2, 1/2)
  | some p =>
    let comps : K := mileageAdjust (compsBase expf p percentile medianPrice)
      targetMileage candMileage
    let hed : K :=
      match targetPrice with
      | some tp2 => if 0 < tp2 then sigmoid6 expf ((tp2 - p) / tp2) else comps
      | none => comps
    (max 0 (min 1 ((1/2) * comps + (1/2) * hed)), comps, hed)

/-- Ascending sort of rationals (`sorted(...)`). -/
def sortedQ (l : List ℚ) : List ℚ := l.mergeSort fun a b => decide (a ≤ b)

/-- Model of `statistics.median`. -/
def medianOf (l : List ℚ) : Option ℚ :=
  if l.isEmpty then none
  else
    let s := sortedQ l
    let n := s.length
    if n % 2 = 1 then some (s.getD (n / 2) 0)
    else some ((s.getD (n / 2 - 1) 0 + s.getD (n / 2) 0) / 2)

/-- Count of elements strictly below `v`: equals `bisect_left` on a sorted
list. -/
def bisectLeftCount (s : List ℚ) (v : ℚ) : ℕ :=
  (s.filter fun x => decide (x < v)).length

/-- Model of the `price_percentile` closure in `score_candidates`. -/
def pricePercentile (priceValues : List ℚ) (v : Option ℚ) : Option ℚ :=
  match v with
  | none => none
  | some x =>
    if priceValues.isEmpty then none
    else if priceValues.length = 1 then some 0
    else
      some (max 0 (min 1 ((bisectLeftCount priceValues x : ℚ) / ((priceValues.length : ℚ) - 1))))

/-- Python truthiness of an optional number. -/
def truthyQ (o : Option ℚ) : Bool :=
  match o with
  | some v => !(v = 0)
  | none => false

/-- The trust score: fraction of truthy presence signals among price, mileage,
power, description, images. -/
def trustScore (p : Payload) : ℚ :=
  (((if truthyQ p.priceEur then 1 else 0)
    + (if truthyQ p.mileageKm then 1 else 0)
    + (if truthyQ p.powerKw then 1 else 0)
    + (if p.description = "" then 0 else 1)
    + (if p.images.isEmpty then 0 else 1) : ℚ)) / 5

/-- One scored candidate as assembled in the `score_candidates` loop. -/
structure Scored where
  payload : Payload
  simScore : ℚ
  dealScore : ℚ
  freshScore : Option ℚ
  trust : ℚ
  finalScore : ℚ
deriving DecidableEq, Repr, Inhabited

/-- The body of the `score_candidates` loop for one candidate. -/
def scoreOne (expf : ℚ → ℚ) (tol : Tolerances) (target : Payload)
    (targetProfile : TextProfile) (priceValues : List ℚ) (median : Option ℚ)
    (c : Payload) : Scored :=
  let cp := buildTextProfile c.description
  let sim := similarityScore tol target c targetProfile cp
  let pct := pricePercentile priceValues c.priceEur
  let deal := (computeDealScore expf c.priceEur pct median
    target.priceEur target.mileageKm c.mileageKm).1
  let fresh : Option ℚ := c.freshnessDays.map fun d => expf (-(d / 30))
  let trust := trustScore c
  let final := max 0 (min 1 (tol.rankAlpha * sim + tol.rankBeta * deal
    + tol.rankFresh * fresh.getD 0 + tol.rankTrust * trust))
  { payload := c, simScore := sim, dealScore := deal, freshScore := fresh,
    trust := trust, finalScore := final }

/-- The descending final-score order used by the stable sort
(`sort(key=final_score, reverse=True)`). -/
def byFinalDesc (a b : Scored) : Bool := decide (b.finalScore ≤ a.finalScore)

/-- Model of `score_candidates`: score every candidate, stable-sort by final
score descending, apply the 0.30 similarity quality floor, and when fewer than
half survive re-admit the top half of the sub-threshold candidates after the
survivors. -/
def scoreCandidates (expf : ℚ → ℚ) (tol : Tolerances) (target : Payload)
    (candidates : List Payload) : List Scored :=
  let priceValues := sortedQ (candidates.filterMap fun p => p.priceEur)
  let median := if priceValues.isEmpty then none else medianOf priceValues
  let tp := buildTextProfile target.description
  let scored := candidates.map (scoreOne expf tol target tp priceValues median)
  let sorted := scored.mergeSort byFinalDesc
  let filtered := sorted.filter fun s => decide ((3/10 : ℚ) ≤ s.simScore)
  if 2 * filtered.length < sorted.length ∧ 0 < sorted.length then
    let above := sorted.filter fun s => decide ((3/10 : ℚ) ≤ s.simScore)
    let below := sorted.filter fun s => decide (s.simScore < (3/10 : ℚ))
    above ++ below.take (max 1 (below.length / 2))
  else filtered

/-- The α/β computation of the request handler from the `balance` knob,
including the defensive reset branch and the final clamps. -/
def rankWeights (balance : ℚ) : ℚ × ℚ :=
  let b := max (-1) (min 1 balance)
  let alphaRaw := max 0.15 (0.55 + b * 0.2)
  let betaRaw := max 0.15 (0.30 - b * 0.2)
  let totalRaw := alphaRaw + betaRaw
  let a2 := if totalRaw ≤ 0 then (0.55 : ℚ) else alphaRaw
  let b2 := if totalRaw ≤ 0 then (0.30 : ℚ) else betaRaw
  let t2 := if totalRaw ≤ 0 then (0.85 : ℚ) else totalRaw
  let scale := 0.85 / t2
  (max 0.1 (min 0.85 (a2 * scale)), max 0.1 (min 0.85 (b2 * scale)))

/-- Model of Python `int(s)` on request parameters: optional sign, digits,
surrounding whitespace; anything else raises (`none`). -/
def parsePyInt (s : String) : Option ℤ :=
  match trimChars s.data with
  | [] => none
  | '-' :: ds =>
    if !ds.isEmpty && ds.all Char.isDigit then some (-(digitsToNat ds : ℤ)) else none
  | '+' :: ds =>
    if !ds.isEmpty && ds.all Char.isDigit then some (digitsToNat ds : ℤ) else none
  | ds => if ds.all Char.isDigit then some (digitsToNat ds : ℤ) else none

/-- Model of `fetch_vehicle`: first available row with the requested id. -/
def fetchVehicle (db : List Row) (vid : String) : Option Row :=
  db.find? fun r => r.isAvailable && (r.vehicleId == vid)

/-- Status and echoed `top` of a comparables request. -/
structure CompOutcome where
  status : ℕ
  requestedTop : Option ℕ
deriving DecidableEq, Repr

/-- Control flow of `comparables_endpoint` up to the response status: `top`
parsing and clamping, target fetch, candidate retrieval; scoring never changes
the status.  `min_results` is `max(top, 5)` as in the handler. -/
def comparablesOutcome (db : List Row) (vid : String) (topParam : String)
    (candidateLimit : ℕ) : CompOutcome :=
  match parsePyInt topParam with
  | none => ⟨400, none⟩
  | some v =>
    let top : ℤ := max 1 (min v 50)
    match fetchVehicle db vid with
    | none => ⟨404, none⟩
    | some target =>
      let targetYear := extractYear target.firstRegistrationRaw
      let minResults := max top.toNat 5
      let cands := (findCandidateRows db target targetYear candidateLimit minResults).1
      if cands.isEmpty then ⟨404, none⟩ else ⟨200, some top.toNat⟩

/-- The `updated_at or created_at` source of the freshness computation in
`format_vehicle_payload` (the comparables `SELECT` never projects
`updated_at`, so it is absent — `none` — on every fetched row). -/
def freshnessSource (r : Row) : Option ℚ :=
  match r.updatedAt with
  | some t => some t
  | none => r.createdAt

/-- Days since the freshness source, clamped at zero. -/
def freshnessDaysOf (r : Row) (now : ℚ) : Option ℚ :=
  (freshnessSource r).map fun t => max 0 (now - t)

/-- The freshness term entering the final blend in `score_candidates`:
`exp(-days/30)` when `freshness_days` is known, else the `0.0` fallback. -/
noncomputable def freshnessTermR (fd : Option ℚ) : ℝ :=
  match fd with
  | some d => Real.exp (-((d : ℝ) / 30))
  | none => 0

/-- Modelled from the spec: the freshness term as §4.F words it —
`exp(−freshness_days/30)` if `updated_at` is known, else `0.0`. -/
noncomputable def specFreshnessTerm (r : Row) (now : ℚ) : ℝ :=
  match r.updatedAt with
  | some t => Real.exp (-(((max 0 (now - t) : ℚ) : ℝ) / 30))
  | none => 0

/-! ## Sample data for concrete witnesses -/

/-- A minimal available target row. -/
def rowT : Row := { vehicleId := "t0", make := some "volkswagen", model := some "golf" }

/-- A candidate row matching `rowT` on every active lock. -/
def rowC : Row := { vehicleId := "c0", make := some "volkswagen", model := some "golf" }

/-- A two-row table. -/
def sampleDb : List Row := [rowT, rowC]

/-- A row whose make is the empty string. -/
def rowEmptyMake : Row := { vehicleId := "t8", make := some "", model := some "golf" }

/-! ## C5 — categorical similarity -/

/-- A second definition following the specification's words (§4.D): each
categorical field scores 1.0 if both sides are non-null and
accent-stripped-lowercase equal, 0.0 if both are non-null and unequal, and 0.5
if either side is null. -/
def specCatFieldScore (a b : Option String) : ℚ :=
  match a, b with
  | some x, some y => if stripLower x = stripLower y then 1 else 0
  | _, _ => 1/2

/-- C5: the categorical similarity equals the weighted sum over make_model
(0.25), body (0.20), fuel (0.20), transmission (0.15) and exterior colour
(0.20) of the per-field spec scores, and the make_model component is 1 exactly
when, all four values being present, both make and model match. -/
theorem C5_categorical_similarity :
    (∀ t c : Payload,
      categoricalSimilarity t c =
        0.25 * mmScore t c
        + 0.20 * specCatFieldScore (effBody t) (effBody c)
        + 0.20 * specCatFieldScore (effFuel t) (effFuel c)
        + 0.15 * specCatFieldScore (effTrans t) (effTrans c)
        + 0.20 * specCatFieldScore (effColor t) (effColor c)) ∧
    (∀ t c : Payload, ∀ tm tmo cm cmo : String,
      normValue t.make = some tm → normValue t.model = some tmo →
      normValue c.make = some cm → normValue c.model = some cmo →
      (mmScore t c = 1 ↔ (tm = cm ∧ tmo = cmo))) := by
  constructor
  · intro t c
    have h : specCatFieldScore = catScore := rfl
    rw [h]
    simp only [categoricalSimilarity]
    norm_num
  · intro t c tm tmo cm cmo h1 h2 h3 h4
    unfold mmScore
    rw [h1, h2, h3, h4]
    constructor
    · intro h
      by_contra hc
      simp only [if_neg hc] at h
      norm_num at h
    · intro h
      simp only [if_pos h]

/-- Witness for the second conjunct of C5 at a concrete pair. -/
theorem C5_witness :
    mmScore { make := some "BMW", model := some "3er" }
        { make := some "bmw", model := some "3er" } = 1 :=
  ((C5_categorical_similarity.2
      { make := some "BMW", model := some "3er" }
      { make := some "bmw", model := some "3er" }
      "bmw" "3er" "bmw" "3er" (by decide) (by decide) (by decide) (by decide)).mpr
    (by decide))

/-! ## C6 — ranking-weight balance -/

/-- Closed form of `rankWeights` on the balance range: below 3/4 the raw
values already sum to 0.85; above, the beta floor bites and both weights are
rescaled by 0.85 over the raw total. -/
theorem rankWeights_closed (b : ℚ) (h1 : -1 ≤ b) (h2 : b ≤ 1) :
    rankWeights b =
      if b ≤ 3/4 then (0.55 + b * 0.2, 0.30 - b * 0.2)
      else ((0.55 + b * 0.2) * (0.85 / (0.70 + b * 0.2)),
            0.15 * (0.85 / (0.70 + b * 0.2))) := by
  have hmin : min 1 b = b := min_eq_right h2
  have hmax : max (-1) b = b := max_eq_right h1
  have ha : max (0.15 : ℚ) (0.55 + b * 0.2) = 0.55 + b * 0.2 :=
    max_eq_right (by linarith)
  rcases le_or_lt b (3/4) with hb | hb
  · have hbeta : max (0.15 : ℚ) (0.30 - b * 0.2) = 0.30 - b * 0.2 :=
      max_eq_right (by linarith)
    have htot : ¬ ((0.55 + b * 0.2) + (0.30 - b * 0.2) ≤ 0) := by intro h; linarith
    simp only [rankWeights, hmin, hmax, ha, hbeta, if_neg htot, if_pos hb]
    have hsum : (0.55 + b * 0.2) + (0.30 - b * 0.2) = (0.85 : ℚ) := by ring
    rw [hsum]
    have hscale : (0.85 : ℚ) / 0.85 = 1 := by norm_num
    rw [hscale, mul_one, mul_one]
    rw [min_eq_right (show (0.55 + b * 0.2 : ℚ) ≤ 0.85 by linarith),
        max_eq_right (show (0.1 : ℚ) ≤ 0.55 + b * 0.2 by linarith),
        min_eq_right (show (0.30 - b * 0.2 : ℚ) ≤ 0.85 by linarith),
        max_eq_right (show (0.1 : ℚ) ≤ 0.30 - b * 0.2 by linarith)]
  · have hbeta : max (0.15 : ℚ) (0.30 - b * 0.2) = 0.15 :=
      max_eq_left (by linarith)
    have htot : ¬ ((0.55 + b * 0.2) + (0.15 : ℚ) ≤ 0) := by intro h; linarith
    simp only [rankWeights, hmin, hmax, ha, hbeta, if_neg htot, if_neg (not_le.mpr hb)]
    have hden : (0 : ℚ) < 0.70 + b * 0.2 := by linarith
    have hsum : (0.55 + b * 0.2) + (0.15 : ℚ) = 0.70 + b * 0.2 := by ring
    rw [hsum]
    have hup : (0.55 + b * 0.2) * (0.85 / (0.70 + b * 0.2)) ≤ 0.85 := by
      rw [mul_div_assoc', div_le_iff hden]
      nlinarith
    have hlow : (0.1 : ℚ) ≤ (0.55 + b * 0.2) * (0.85 / (0.70 + b * 0.2)) := by
      rw [mul_div_assoc', le_div_iff hden]
      nlinarith
    have hup2 : (0.15 : ℚ) * (0.85 / (0.70 + b * 0.2)) ≤ 0.85 := by
      rw [mul_div_assoc', div_le_iff hden]
      nlinarith
    have hlow2 : (0.1 : ℚ) ≤ 0.15 * (0.85 / (0.70 + b * 0.2)) := by
      rw [mul_div_assoc', le_div_iff hden]
      nlinarith
    rw [min_eq_right hup, max_eq_right hlow, min_eq_right hup2, max_eq_right hlow2]

/-- C6 counterexample: at balance 1 the computed beta weight is 17/120,
strictly below the claimed lower bound 0.15 (alpha is 17/24). -/
theorem C6_counterexample :
    (rankWeights 1).2 = 17/120 ∧ (17/120 : ℚ) < 0.15 := by
  constructor
  · norm_num [rankWeights]
  · norm_num

/-- C6 as amended: for balance in [-1, 1] the weights sum to 0.85 exactly,
alpha stays within [0.15, 0.85], beta stays within [17/120, 0.85] (it drops
below 0.15 when balance exceeds 3/4), and alpha is strictly increasing (hence
beta strictly decreasing) in balance. -/
theorem C6_amended :
    (∀ b : ℚ, -1 ≤ b → b ≤ 1 →
      (rankWeights b).1 + (rankWeights b).2 = 0.85 ∧
      0.15 ≤ (rankWeights b).1 ∧ (rankWeights b).1 ≤ 0.85 ∧
      17/120 ≤ (rankWeights b).2 ∧ (rankWeights b).2 ≤ 0.85) ∧
    (∀ b1 b2 : ℚ, -1 ≤ b1 → b1 < b2 → b2 ≤ 1 →
      (rankWeights b1).1 < (rankWeights b2).1 ∧
      (rankWeights b2).2 < (rankWeights b1).2) := by
  have key : ∀ b : ℚ, -1 ≤ b → b ≤ 1 →
      (rankWeights b).1 + (rankWeights b).2 = 0.85 ∧
      0.15 ≤ (rankWeights b).1 ∧ (rankWeights b).1 ≤ 0.85 ∧
      17/120 ≤ (rankWeights b).2 ∧ (rankWeights b).2 ≤ 0.85 := by
    intro b hb1 hb2
    rw [rankWeights_closed b hb1 hb2]
    rcases le_or_lt b (3/4) with hb | hb
    · rw [if_pos hb]
      refine ⟨by ring, by linarith, by linarith, by linarith, by linarith⟩
    · rw [if_neg (not_le.mpr hb)]
      dsimp only
      have hden : (0 : ℚ) < 0.70 + b * 0.2 := by linarith
      have hden9 : (0.70 + b * 0.2 : ℚ) ≤ 0.9 := by linarith
      refine ⟨?_, ?_, ?_, ?_, ?_⟩
      · field_simp
        ring
      · rw [mul_div_assoc', le_div_iff hden]; nlinarith
      · rw [mul_div_assoc', div_le_iff hden]; nlinarith
      · rw [mul_div_assoc', le_div_iff hden]; nlinarith
      · rw [mul_div_assoc', div_le_iff hden]; nlinarith
  refine ⟨key, ?_⟩
  intro b1 b2 h1 hlt h2
  have halpha : (rankWeights b1).1 < (rankWeights b2).1 := by
    rw [rankWeights_closed b1 h1 (by linarith), rankWeights_closed b2 (by linarith) h2]
    rcases le_or_lt b1 (3/4) with ha1 | ha1 <;> rcases le_or_lt b2 (3/4) with ha2 | ha2
    · rw [if_pos ha1, if_pos ha2]; dsimp only; linarith
    · rw [if_pos ha1, if_neg (not_le.mpr ha2)]
      dsimp only
      have hden : (0 : ℚ) < 0.70 + b2 * 0.2 := by linarith
      have : (0.70 : ℚ) < (0.55 + b2 * 0.2) * (0.85 / (0.70 + b2 * 0.2)) := by
        rw [mul_div_assoc', lt_div_iff hden]; nlinarith
      linarith
    · exfalso; linarith
    · rw [if_neg (not_le.mpr ha1), if_neg (not_le.mpr ha2)]
      dsimp only
      have hd1 : (0 : ℚ) < 0.70 + b1 * 0.2 := by linarith
      have hd2 : (0 : ℚ) < 0.70 + b2 * 0.2 := by linarith
      rw [mul_div_assoc', mul_div_assoc', div_lt_div_iff hd1 hd2]
      nlinarith
  refine ⟨halpha, ?_⟩
  have hs1 := (key b1 h1 (by linarith)).1
  have hs2 := (key b2 (by linarith) h2).1
  linarith

/-- Witness for C6 at balance 0: the default weights 0.55 and 0.30. -/
theorem C6_witness :
    (rankWeights 0).1 + (rankWeights 0).2 = 0.85 ∧
    (rankWeights (-1/2)).1 < (rankWeights (1/2)).1 :=
  ⟨(C6_amended.1 0 (by norm_num) (by norm_num)).1,
   (C6_amended.2 (-1/2) (1/2) (by norm_num) (by norm_num) (by norm_num)).1⟩

/-! ## C7 — `top` parameter boundary behaviour -/

/-- C7 counterexample: a request with `top=0` is answered with status 200 (the
value is clamped to 1), not 400 as claimed. -/
theorem C7_counterexample :
    comparablesOutcome sampleDb "t0" "0" 400 = ⟨200, some 1⟩ := by decide

/-- Reduction of `comparablesOutcome` once the `top` parameter parses. -/
theorem comparablesOutcome_parsed (db : List Row) (vid s : String) (lim : ℕ)
    (v : ℤ) (h : parsePyInt s = some v) :
    comparablesOutcome db vid s lim =
      match fetchVehicle db vid with
      | none => ⟨404, none⟩
      | some target =>
        if ((findCandidateRows db target (extractYear target.firstRegistrationRaw)
            lim (max (max 1 (min v 50)).toNat 5)).1).isEmpty then ⟨404, none⟩
        else ⟨200, some (max 1 (min v 50)).toNat⟩ := by
  unfold comparablesOutcome
  rw [h]

/-- C7 as amended: `top=0` is clamped to 1 (never a 400), `top=51` is clamped
to 50, and a 400 arises exactly from an unparseable `top`. -/
theorem C7_amended :
    (∀ (db : List Row) (vid : String) (lim : ℕ),
      (comparablesOutcome db vid "0" lim).status ≠ 400 ∧
      (comparablesOutcome db vid "51" lim).status ≠ 400 ∧
      ((comparablesOutcome db vid "0" lim).status = 200 →
        (comparablesOutcome db vid "0" lim).requestedTop = some 1) ∧
      ((comparablesOutcome db vid "51" lim).status = 200 →
        (comparablesOutcome db vid "51" lim).requestedTop = some 50)) ∧
    (∀ (db : List Row) (vid : String) (lim : ℕ) (s : String),
      parsePyInt s = none → (comparablesOutcome db vid s lim).status = 400) := by
  constructor
  · intro db vid lim
    rw [comparablesOutcome_parsed db vid "0" lim 0 (by decide),
        comparablesOutcome_parsed db vid "51" lim 51 (by decide)]
    have t0 : (max 1 (min (0 : ℤ) 50)).toNat = 1 := by decide
    have t51 : (max 1 (min (51 : ℤ) 50)).toNat = 50 := by decide
    rw [t0, t51]
    cases hf : fetchVehicle db vid
    · exact ⟨by simp, by simp, by simp, by simp⟩
    · refine ⟨?_, ?_, ?_, ?_⟩ <;> dsimp only <;> split <;> simp
  · intro db vid lim s hs
    unfold comparablesOutcome
    rw [hs]

/-- Witness for C7: on the sample table both clamped requests answer 200 with
the clamped `top` echoed, and a malformed `top` 400s. -/
theorem C7_witness :
    (comparablesOutcome sampleDb "t0" "51" 400).requestedTop = some 50 ∧
    (comparablesOutcome sampleDb "t0" "abc" 400).status = 400 :=
  ⟨(C7_amended.1 sampleDb "t0" 400).2.2.2 (by decide),
   C7_amended.2 sampleDb "t0" 400 "abc" (by decide)⟩

/-! ## C8 — missing make/model -/

/-- C8 counterexample: a request whose target exists but has an empty make is
answered 404 (through the empty-candidates branch), not 400 as claimed. -/
theorem C8_counterexample :
    (comparablesOutcome [rowEmptyMake] "t8" "10" 400).status = 404 := by decide

/-- C8 as amended: when the target is found but its make or model normalises
to nothing, the request fails with HTTP 404 (the generic no-comparables error),
not 400. -/
theorem C8_amended (db : List Row) (vid : String) (topParam : String) (lim : ℕ)
    (v : ℤ) (t : Row) (hp : parsePyInt topParam = some v)
    (hf : fetchVehicle db vid = some t)
    (hmm : normalizeText t.make = none ∨ normalizeText t.model = none) :
    (comparablesOutcome db vid topParam lim).status = 404 := by
  have hctx : mkTargetCtx t (extractYear t.firstRegistrationRaw) = none := by
    unfold mkTargetCtx
    rcases hmm with h | h
    · rw [h]
    · rw [h]
      cases normalizeText t.make <;> rfl
  unfold comparablesOutcome
  rw [hp, hf]
  dsimp only
  unfold findCandidateRows
  rw [hctx]
  rfl

/-- Witness for C8 at the concrete empty-make row. -/
theorem C8_witness :
    (comparablesOutcome [rowEmptyMake] "t8" "7" 400).status = 404 :=
  C8_amended [rowEmptyMake] "t8" "7" 400 7 rowEmptyMake (by decide) (by decide)
    (Or.inl (by decide))

/-! ## C9 — freshness term -/

/-- A row with a creation timestamp but no update timestamp. -/
def rowC9 : Row := { vehicleId := "r9", createdAt := some 0 }

/-- C9 counterexample: with `updated_at` unknown but `created_at` known, the
freshness term entering the blend is `exp(-1) ≠ 0`, while the claim's formula
(`specFreshnessTerm`) demands `0.0`. -/
theorem C9_counterexample :
    freshnessTermR (freshnessDaysOf rowC9 30) ≠ 0 ∧ specFreshnessTerm rowC9 30 = 0 := by
  constructor
  · have h : freshnessDaysOf rowC9 30 = some 30 := by
      simp [freshnessDaysOf, freshnessSource, rowC9]
    rw [h]
    simp only [freshnessTermR]
    exact Real.exp_ne_zero _
  · rfl

/-- C9 as amended: the freshness term equals `exp(-days/30)` with days
measured since `updated_at` when known, else since `created_at`; it is `0.0`
exactly when neither timestamp is known, and lies in `(0, 1]` otherwise. -/
theorem C9_amended :
    (∀ (r : Row) (now : ℚ),
      freshnessTermR (freshnessDaysOf r now) =
        match freshnessSource r with
        | some t => Real.exp (-(((max 0 (now - t) : ℚ) : ℝ) / 30))
        | none => 0) ∧
    (∀ (r : Row) (now : ℚ), freshnessSource r = none →
      freshnessTermR (freshnessDaysOf r now) = 0) ∧
    (∀ (r : Row) (now t : ℚ), freshnessSource r = some t →
      0 < freshnessTermR (freshnessDaysOf r now) ∧
      freshnessTermR (freshnessDaysOf r now) ≤ 1) := by
  refine ⟨?_, ?_, ?_⟩
  · intro r now
    cases h : freshnessSource r <;> simp [freshnessDaysOf, h, freshnessTermR]
  · intro r now h
    simp [freshnessDaysOf, h, freshnessTermR]
  · intro r now t h
    have hd : freshnessDaysOf r now = some (max 0 (now - t)) := by
      simp [freshnessDaysOf, h]
    rw [hd]
    simp only [freshnessTermR]
    refine ⟨Real.exp_pos _, ?_⟩
    have hnn : (0 : ℝ) ≤ ((max 0 (now - t) : ℚ) : ℝ) := by
      exact_mod_cast le_max_left 0 (now - t)
    have : (-(((max 0 (now - t) : ℚ) : ℝ) / 30)) ≤ 0 := by linarith
    calc Real.exp (-(((max 0 (now - t) : ℚ) : ℝ) / 30)) ≤ Real.exp 0 :=
          Real.exp_le_exp.mpr this
      _ = 1 := Real.exp_zero

/-- Witness for C9 at the concrete created_at-only row. -/
theorem C9_witness : 0 < freshnessTermR (freshnessDaysOf rowC9 30) :=
  (C9_amended.2.2 rowC9 30 0 (by decide)).1

/-! ## C4 — deal sub-score bounds -/

/-- Positivity and upper bound of the sigmoid under a positive exponential. -/
theorem sigmoid6_mem {K : Type} [LinearOrderedField K] (expf : K → K)
    (hexp : ∀ x, 0 < expf x) (x : K) :
    0 < sigmoid6 expf x ∧ sigmoid6 expf x < 1 := by
  have hp := hexp (-(6 * x))
  have hden : (0 : K) < 1 + expf (-(6 * x)) := by linarith
  constructor
  · exact div_pos one_pos hden
  · rw [sigmoid6, div_lt_one hden]
    linarith

/-- The comparable base sub-score lies in [0, 1]. -/
theorem compsBase_mem {K : Type} [LinearOrderedField K] (expf : K → K)
    (hexp : ∀ x, 0 < expf x) (p : K) (pct med : Option K) :
    0 ≤ compsBase expf p pct med ∧ compsBase expf p pct med ≤ 1 := by
  have hc0 : ∀ q : Option K,
      0 ≤ (match q with
            | none => (1 : K)/2
            | some pc => max 0 (min 1 (1 - pc))) ∧
      (match q with
        | none => (1 : K)/2
        | some pc => max 0 (min 1 (1 - pc))) ≤ 1 := by
    intro q
    cases q with
    | none => norm_num
    | some pc =>
      refine ⟨le_max_left 0 _, max_le (by norm_num) (min_le_left 1 _)⟩
  unfold compsBase
  cases med with
  | none => exact hc0 pct
  | some m =>
    dsimp only
    by_cases hm : 0 < m
    · rw [if_pos hm]
      have := sigmoid6_mem expf hexp ((m - p) / m)
      exact ⟨le_of_lt this.1, le_of_lt this.2⟩
    · rw [if_neg hm]
      exact hc0 pct

/-- Bounds of the mileage adjustment, and its inertness when either mileage is
falsy. -/
theorem mileageAdjust_mem {K : Type} [LinearOrderedField K] (base : K)
    (tm cm : Option K) (hb : 0 ≤ base ∧ base ≤ 1) :
    (-(1/4) ≤ mileageAdjust base tm cm ∧ mileageAdjust base tm cm ≤ 1 + 3/20) ∧
    ((tm = none ∨ cm = none ∨ tm = some 0 ∨ cm = some 0) →
      mileageAdjust base tm cm = base) := by
  constructor
  · cases tm with
    | none => simpa [mileageAdjust] using ⟨by linarith [hb.1], by linarith [hb.2]⟩
    | some t =>
      cases cm with
      | none => simpa [mileageAdjust] using ⟨by linarith [hb.1], by linarith [hb.2]⟩
      | some c =>
        simp only [mileageAdjust]
        by_cases h0 : t = 0 ∨ c = 0
        · rw [if_pos h0]; exact ⟨by linarith [hb.1], by linarith [hb.2]⟩
        · rw [if_neg h0]
          set r := (c - t) / max t 1 with hr
          by_cases hrpos : 0 < r
          · rw [if_pos hrpos]
            have h1 : 0 ≤ min (r / (3/2)) 1 := le_min (by positivity) zero_le_one
            have h2 : min (r / (3/2)) 1 ≤ 1 := min_le_right _ _
            constructor <;> nlinarith [hb.1, hb.2]
          · rw [if_neg hrpos]
            have h1 : 0 ≤ min (|r| / (3/2)) 1 := le_min (by positivity) zero_le_one
            have h2 : min (|r| / (3/2)) 1 ≤ 1 := min_le_right _ _
            constructor <;> nlinarith [hb.1, hb.2]
  · intro h
    rcases h with h | h | h | h
    · rw [h]; cases cm <;> rfl
    · rw [h]; cases tm <;> rfl
    · rw [h]
      cases cm with
      | none => rfl
      | some c => simp [mileageAdjust]
    · rw [h]
      cases tm with
      | none => rfl
      | some t => simp [mileageAdjust]

/-- C4 as amended: for every input and any positive exponential (in
particular `Real.exp`), the comparable and hedonic sub-scores of
`compute_deal_score` lie within [-0.25, 1.15]; they lie in [0, 1] whenever the
mileage adjustment does not fire (either mileage missing or zero); and the
blended deal score is always clamped into [0, 1]. -/
theorem C4_amended {K : Type} [LinearOrderedField K] (expf : K → K)
    (hexp : ∀ x, 0 < expf x)
    (price pct med tp tm cm : Option K) :
    (-(1/4) ≤ (computeDealScore expf price pct med tp tm cm).2.1 ∧
      (computeDealScore expf price pct med tp tm cm).2.1 ≤ 1 + 3/20) ∧
    (-(1/4) ≤ (computeDealScore expf price pct med tp tm cm).2.2 ∧
      (computeDealScore expf price pct med tp tm cm).2.2 ≤ 1 + 3/20) ∧
    (0 ≤ (computeDealScore expf price pct med tp tm cm).1 ∧
      (computeDealScore expf price pct med tp tm cm).1 ≤ 1) ∧
    ((tm = none ∨ cm = none ∨ tm = some 0 ∨ cm = some 0) →
      (0 ≤ (computeDealScore expf price pct med tp tm cm).2.1 ∧
        (computeDealScore expf price pct med tp tm cm).2.1 ≤ 1 ∧
        0 ≤ (computeDealScore expf price pct med tp tm cm).2.2 ∧
        (computeDealScore expf price pct med tp tm cm).2.2 ≤ 1)) := by
  cases price with
  | none =>
    have e : computeDealScore expf (none : Option K) pct med tp tm cm =
        (1/2, 1/2, 1/2) := rfl
    refine ⟨⟨by rw [e]; norm_num, by rw [e]; norm_num⟩,
      ⟨by rw [e]; norm_num, by rw [e]; norm_num⟩,
      ⟨by rw [e]; norm_num, by rw [e]; norm_num⟩,
      fun _ => ⟨by rw [e]; norm_num, by rw [e]; norm_num,
        by rw [e]; norm_num, by rw [e]; norm_num⟩⟩
  | some p =>
    have hbase := compsBase_mem expf hexp p pct med
    have hadj := mileageAdjust_mem (compsBase expf p pct med) tm cm hbase
    have hfix := hadj.2
    obtain ⟨hA1, hA2⟩ := hadj.1
    cases tp with
    | none =>
      have e : computeDealScore expf (some p) pct med none tm cm =
          (max 0 (min 1 ((1/2) * mileageAdjust (compsBase expf p pct med) tm cm
            + (1/2) * mileageAdjust (compsBase expf p pct med) tm cm)),
           mileageAdjust (compsBase expf p pct med) tm cm,
           mileageAdjust (compsBase expf p pct med) tm cm) := rfl
      rw [e]
      refine ⟨⟨hA1, hA2⟩, ⟨hA1, hA2⟩,
        ⟨le_max_left 0 _, max_le zero_le_one (min_le_left 1 _)⟩, ?_⟩
      intro h
      rw [hfix h]
      exact ⟨hbase.1, hbase.2, hbase.1, hbase.2⟩
    | some tp2 =>
      by_cases htp : 0 < tp2
      · have e : computeDealScore expf (some p) pct med (some tp2) tm cm =
            (max 0 (min 1 ((1/2) * mileageAdjust (compsBase expf p pct med) tm cm
              + (1/2) * sigmoid6 expf ((tp2 - p) / tp2))),
             mileageAdjust (compsBase expf p pct med) tm cm,
             sigmoid6 expf ((tp2 - p) / tp2)) := by
          simp only [computeDealScore, if_pos htp]
        obtain ⟨hs1, hs2⟩ := sigmoid6_mem expf hexp ((tp2 - p) / tp2)
        rw [e]
        refine ⟨⟨hA1, hA2⟩, ⟨by linarith, by linarith⟩,
          ⟨le_max_left 0 _, max_le zero_le_one (min_le_left 1 _)⟩, ?_⟩
        intro h
        rw [hfix h]
        exact ⟨hbase.1, hbase.2, le_of_lt hs1, le_of_lt hs2⟩
      · have e : computeDealScore expf (some p) pct med (some tp2) tm cm =
            (max 0 (min 1 ((1/2) * mileageAdjust (compsBase expf p pct med) tm cm
              + (1/2) * mileageAdjust (compsBase expf p pct med) tm cm)),
             mileageAdjust (compsBase expf p pct med) tm cm,
             mileageAdjust (compsBase expf p pct med) tm cm) := by
          simp only [computeDealScore, if_neg htp]
        rw [e]
        refine ⟨⟨hA1, hA2⟩, ⟨hA1, hA2⟩,
          ⟨le_max_left 0 _, max_le zero_le_one (min_le_left 1 _)⟩, ?_⟩
        intro h
        rw [hfix h]
        exact ⟨hbase.1, hbase.2, hbase.1, hbase.2⟩

/-- Witness for C4 at a concrete real input with `Real.exp`. -/
theorem C4_witness :
    0 ≤ (computeDealScore (K := ℝ) Real.exp (some 2000) (some (1/2)) (some 1000)
      (some 1000) none none).2.1 ∧
    (computeDealScore (K := ℝ) Real.exp (some 2000) (some (1/2)) (some 1000)
      (some 1000) none none).2.1 ≤ 1 :=
  ((C4_amended (K := ℝ) Real.exp (fun x => Real.exp_pos x)
      (some 2000) (some (1/2)) (some 1000) (some 1000) none none).2.2.2
    (Or.inl rfl)).imp id (fun h => h.1)

/-- C4 counterexample: with cohort median 1000, candidate price 2000 and a
mileage ratio of 3, the comparable sub-score is `1/(1+exp 6) - 1/4 < 0`,
outside the claimed [0, 1]. -/
theorem C4_counterexample :
    (computeDealScore (K := ℝ) Real.exp (some 2000) (some (1/2)) (some 1000)
      (some 1000) (some 10000) (some 40000)).2.1 < 0 := by
  have h7 : (7 : ℝ) ≤ Real.exp 6 := by
    have := Real.add_one_le_exp (6 : ℝ)
    linarith
  have hcomps : (computeDealScore (K := ℝ) Real.exp (some 2000) (some (1/2))
      (some 1000) (some 1000) (some 10000) (some 40000)).2.1 =
      mileageAdjust (compsBase Real.exp 2000 (some (1/2)) (some 1000))
        (some 10000) (some 40000) := by
    unfold computeDealScore
    norm_num
  rw [hcomps]
  have hbase : compsBase Real.exp 2000 (some (1/2)) (some 1000) =
      sigmoid6 Real.exp (-1) := by
    norm_num [compsBase]
  have hadj : mileageAdjust (compsBase Real.exp 2000 (some (1/2)) (some 1000))
      (some 10000) (some 40000) =
      compsBase Real.exp 2000 (some (1/2)) (some 1000) - 1/4 := by
    simp only [mileageAdjust]
    rw [if_neg (show ¬((10000:ℝ) = 0 ∨ (40000:ℝ) = 0) by norm_num)]
    rw [max_eq_left (show (1:ℝ) ≤ 10000 by norm_num)]
    rw [if_pos (show (0:ℝ) < ((40000:ℝ) - 10000) / 10000 by norm_num)]
    rw [min_eq_right (show (1:ℝ) ≤ ((40000:ℝ) - 10000) / 10000 / (3/2) by norm_num)]
    norm_num
  rw [hadj, hbase]
  have hs : sigmoid6 Real.exp (-1) = 1 / (1 + Real.exp 6) := by
    unfold sigmoid6
    norm_num
  rw [hs]
  have hpos : (0 : ℝ) < 1 + Real.exp 6 := by linarith
  have h8 : 1 / (1 + Real.exp 6) ≤ 1 / 8 :=
    one_div_le_one_div_of_le (by norm_num) (by linarith)
  linarith

/-! ## C2 — response ordering -/

/-- Stand-in exponential for concrete `score_candidates` evaluations: the
cohorts below carry no prices and no freshness timestamps, so the pipeline
provably never evaluates it (`scoreCandidates_exp_irrelevant`). -/
def expStub : ℚ → ℚ := fun _ => 0

/-- The endpoint's default tolerance configuration. -/
def defaultTolerances : Tolerances := {}

/-- When no candidate has a price or a freshness timestamp, the choice of
exponential cannot influence `score_candidates`. -/
theorem scoreCandidates_exp_irrelevant (e1 e2 : ℚ → ℚ) (tol : Tolerances)
    (target : Payload) (cands : List Payload)
    (h : ∀ c ∈ cands, c.priceEur = none ∧ c.freshnessDays = none) :
    scoreCandidates e1 tol target cands = scoreCandidates e2 tol target cands := by
  have hpv : cands.filterMap (fun p => p.priceEur) = [] :=
    List.filterMap_eq_nil.mpr fun a ha => (h a ha).1
  have hmap : ∀ pv med,
      cands.map (scoreOne e1 tol target (buildTextProfile target.description) pv med) =
      cands.map (scoreOne e2 tol target (buildTextProfile target.description) pv med) := by
    intro pv med
    apply List.map_congr_left
    intro c hc
    obtain ⟨hp, hf⟩ := h c hc
    simp [scoreOne, hp, hf, computeDealScore]
  simp only [scoreCandidates]
  rw [hpv, hmap]

/-- Target of the ordering counterexample: make/model plus four categorical
values and a plain four-token description, no numerics. -/
def c2Target : Payload :=
  { make := some "a", model := some "b", bodyGroup := some "s",
    fuelGroup := some "p", transmissionGroup := some "m",
    colorCanonical := some "black", description := "alpha beta gamma delta" }

/-- Above-threshold candidate with empty description and no trust signals:
similarity 0.3275, final 0.330125. -/
def c2CandA : Payload :=
  { make := some "a", model := some "b", bodyGroup := some "q",
    fuelGroup := some "r", transmissionGroup := some "t",
    colorCanonical := some "white", description := "" }

/-- Sub-threshold candidate (similarity 0.2975) with strong trust signals:
final 0.353625, the highest of the cohort. -/
def c2CandB : Payload :=
  { make := some "a", model := some "b", bodyGroup := some "q2",
    fuelGroup := some "r2", transmissionGroup := some "t2",
    colorCanonical := some "red",
    description := "alpha beta gamma omega sitzheizung",
    mileageKm := some 50000, powerKw := some 100, images := ["u"] }

/-- A second sub-threshold candidate keeping the re-admission branch active. -/
def c2CandC : Payload :=
  { make := some "a", model := some "b", bodyGroup := some "q3",
    fuelGroup := some "r3", transmissionGroup := some "t3",
    colorCanonical := some "green", description := "sitzheizung" }

set_option maxRecDepth 8000 in
unseal Rat.mul Rat.add Rat.sub Rat.inv Rat.ofScientific List.merge List.mergeSort in
/-- C2 counterexample: on this cohort the quality floor keeps only the
above-threshold candidate and then re-admits the top sub-threshold one after
it, so the returned final scores are [0.330125, 0.353625] — strictly
increasing across the junction. -/
theorem C2_counterexample :
    ((scoreCandidates expStub defaultTolerances c2Target
        [c2CandA, c2CandB, c2CandC]).map fun s => s.finalScore) =
      [2641/8000, 2829/8000] ∧
    ((2641 : ℚ)/8000) < 2829/8000 :=
  ⟨by decide, by decide⟩

/-- The quality-floor / re-admission phase applied to any non-increasing
list splits into two non-increasing segments: survivors, then re-admitted. -/
theorem floor_segments (l : List Scored)
    (hl : List.Pairwise (fun a b => b.finalScore ≤ a.finalScore) l) :
    ∃ above below : List Scored,
      (if 2 * (List.filter (fun s => decide ((3/10 : ℚ) ≤ s.simScore)) l).length < l.length
          ∧ 0 < l.length then
        List.filter (fun s => decide ((3/10 : ℚ) ≤ s.simScore)) l ++
          List.take
            (max 1 ((List.filter (fun s => decide (s.simScore < (3/10 : ℚ))) l).length / 2))
            (List.filter (fun s => decide (s.simScore < (3/10 : ℚ))) l)
       else List.filter (fun s => decide ((3/10 : ℚ) ≤ s.simScore)) l) = above ++ below ∧
      List.Pairwise (fun a b => b.finalScore ≤ a.finalScore) above ∧
      List.Pairwise (fun a b => b.finalScore ≤ a.finalScore) below ∧
      (∀ s ∈ above, (3/10 : ℚ) ≤ s.simScore) ∧
      (∀ s ∈ below, s.simScore < (3/10 : ℚ)) := by
  by_cases hc : 2 * (List.filter (fun s => decide ((3/10 : ℚ) ≤ s.simScore)) l).length
      < l.length ∧ 0 < l.length
  · rw [if_pos hc]
    refine ⟨_, _, rfl, ?_, ?_, ?_, ?_⟩
    · exact List.Pairwise.sublist (List.filter_sublist _) hl
    · exact List.Pairwise.sublist
        ((List.take_sublist _ _).trans (List.filter_sublist _)) hl
    · intro s hs
      have := (List.mem_filter.mp hs).2
      simpa [decide_eq_true_eq] using this
    · intro s hs
      have hs2 := (List.take_sublist _ _).subset hs
      have := (List.mem_filter.mp hs2).2
      simpa [decide_eq_true_eq] using this
  · rw [if_neg hc]
    refine ⟨_, [], (List.append_nil _).symm, ?_, List.Pairwise.nil, ?_, ?_⟩
    · exact List.Pairwise.sublist (List.filter_sublist _) hl
    · intro s hs
      have := (List.mem_filter.mp hs).2
      simpa [decide_eq_true_eq] using this
    · intro s hs
      exact absurd hs (List.not_mem_nil s)

/-- C2 as amended: every `score_candidates` result is the concatenation of two
final-score-non-increasing segments — the above-threshold candidates followed
by the re-admitted sub-threshold ones (the second segment is empty whenever
the re-admission branch does not fire); across the junction the order can
break, as the counterexample shows. -/
theorem C2_amended (expf : ℚ → ℚ) (tol : Tolerances) (target : Payload)
    (cands : List Payload) :
    ∃ above below : List Scored,
      scoreCandidates expf tol target cands = above ++ below ∧
      List.Pairwise (fun a b => b.finalScore ≤ a.finalScore) above ∧
      List.Pairwise (fun a b => b.finalScore ≤ a.finalScore) below ∧
      (∀ s ∈ above, (3/10 : ℚ) ≤ s.simScore) ∧
      (∀ s ∈ below, s.simScore < (3/10 : ℚ)) := by
  have hsorted : ∀ l : List Scored,
      List.Pairwise (fun a b => b.finalScore ≤ a.finalScore)
        (l.mergeSort byFinalDesc) := by
    intro l
    have htrans : ∀ a b c : Scored, byFinalDesc a b = true → byFinalDesc b c = true →
        byFinalDesc a c = true := by
      intro a b c hab hbc
      simp only [byFinalDesc, decide_eq_true_eq] at hab hbc ⊢
      exact le_trans hbc hab
    have htotal : ∀ a b : Scored, (byFinalDesc a b || byFinalDesc b a) = true := by
      intro a b
      simp only [byFinalDesc, Bool.or_eq_true, decide_eq_true_eq]
      exact le_total b.finalScore a.finalScore
    exact (List.sorted_mergeSort htrans htotal l).imp
      (by intro a b hab; simpa [byFinalDesc, decide_eq_true_eq] using hab)
  obtain ⟨above, below, heq, h1, h2, h3, h4⟩ :=
    floor_segments
      ((cands.map (scoreOne expf tol target (buildTextProfile target.description)
        (sortedQ (cands.filterMap fun p => p.priceEur))
        (if (sortedQ (cands.filterMap fun p => p.priceEur)).isEmpty then none
         else medianOf (sortedQ (cands.filterMap fun p => p.priceEur))))).mergeSort
        byFinalDesc)
      (hsorted _)
  exact ⟨above, below, heq, h1, h2, h3, h4⟩

/-! ## C3 — relaxation monotonicity -/

/-- The combined admission predicate of one relaxation attempt on one row:
the SQL WHERE clause conjoined with the Python-side colour/year filter. -/
def admits (t : TargetCtx) (a : Attempt) (c : Row) : Bool :=
  sqlPred t a c && pyPred t a c

/-- Candidate set of one attempt over the whole table, ignoring the
`candidate_limit` truncation. -/
def relaxedSet (db : List Row) (t : TargetCtx) (a : Attempt) : List Row :=
  db.filter (admits t a)

/-- A `BETWEEN` soft lock only widens when its bounds widen on positive
targets. -/
theorem condRange_mono (tval cval : Option ℚ) (lo1 hi1 lo2 hi2 : ℚ → ℚ)
    (hlo : ∀ m, 0 < m → lo2 m ≤ lo1 m) (hhi : ∀ m, 0 < m → hi1 m ≤ hi2 m)
    (h : condRange tval lo1 hi1 cval = true) : condRange tval lo2 hi2 cval = true := by
  cases tval with
  | none => rfl
  | some m =>
    simp only [condRange] at h ⊢
    by_cases hm : 0 < m
    · rw [if_pos hm] at h ⊢
      cases cval with
      | none => exact absurd h (by simp)
      | some v =>
        simp only [Bool.and_eq_true, decide_eq_true_eq] at h ⊢
        exact ⟨le_trans (hlo m hm) h.1, le_trans h.2 (hhi m hm)⟩
    · rw [if_neg hm]

/-- The SQL clause of a wider attempt admits every row the narrower one
does. -/
theorem sqlPred_mono (t : TargetCtx) (a1 a2 : Attempt)
    (hm : a1.mileageTol ≤ a2.mileageTol) (hpl : a2.priceMin ≤ a1.priceMin)
    (hph : a1.priceMax ≤ a2.priceMax) (hpw : a1.powerTol ≤ a2.powerTol)
    (c : Row) (h : sqlPred t a1 c = true) : sqlPred t a2 c = true := by
  unfold sqlPred at h ⊢
  simp only [Bool.and_eq_true] at h ⊢
  obtain ⟨⟨⟨hfix, h9⟩, h10⟩, h11⟩ := h
  refine ⟨⟨⟨hfix, ?_⟩, ?_⟩, ?_⟩
  · refine condRange_mono _ _ _ _ _ _ ?_ ?_ h9
    · intro m hm0
      have : (1 : ℚ) - a2.mileageTol ≤ 1 - a1.mileageTol := by linarith
      exact mul_le_mul_of_nonneg_left this (le_of_lt hm0)
    · intro m hm0
      have : (1 : ℚ) + a1.mileageTol ≤ 1 + a2.mileageTol := by linarith
      exact mul_le_mul_of_nonneg_left this (le_of_lt hm0)
  · refine condRange_mono _ _ _ _ _ _ ?_ ?_ h10
    · intro m hm0
      exact mul_le_mul_of_nonneg_left hpl (le_of_lt hm0)
    · intro m hm0
      exact mul_le_mul_of_nonneg_left hph (le_of_lt hm0)
  · refine condRange_mono _ _ _ _ _ _ ?_ ?_ h11
    · intro m hm0
      have : (1 : ℚ) - a2.powerTol ≤ 1 - a1.powerTol := by linarith
      exact mul_le_mul_of_nonneg_left this (le_of_lt hm0)
    · intro m hm0
      have : (1 : ℚ) + a1.powerTol ≤ 1 + a2.powerTol := by linarith
      exact mul_le_mul_of_nonneg_left this (le_of_lt hm0)

/-- The Python-side filter of a wider attempt admits every row the narrower
one does. -/
theorem pyPred_mono (t : TargetCtx) (a1 a2 : Attempt)
    (hy : a1.yearTol ≤ a2.yearTol) (c : Row)
    (h : pyPred t a1 c = true) : pyPred t a2 c = true := by
  simp only [pyPred, Bool.and_eq_true] at h ⊢
  refine ⟨h.1, ?_⟩
  have h2 := h.2
  cases hty : t.tyear with
  | none => rfl
  | some ty =>
    rw [hty] at h2
    simp only at h2 ⊢
    by_cases h0 : ty = 0
    · rw [if_pos h0]
    · rw [if_neg h0] at h2 ⊢
      cases hcy : extractYear c.firstRegistrationRaw with
      | none => rw [hcy] at h2; exact absurd h2 (by simp)
      | some cy =>
        rw [hcy] at h2
        simp only [decide_eq_true_eq] at h2 ⊢
        exact le_trans h2 hy

/-- Monotonicity of the combined admission predicate under widening of every
soft lock. -/
theorem admits_mono (t : TargetCtx) (a1 a2 : Attempt)
    (hy : a1.yearTol ≤ a2.yearTol) (hm : a1.mileageTol ≤ a2.mileageTol)
    (hpl : a2.priceMin ≤ a1.priceMin) (hph : a1.priceMax ≤ a2.priceMax)
    (hpw : a1.powerTol ≤ a2.powerTol) (c : Row)
    (h : admits t a1 c = true) : admits t a2 c = true := by
  simp only [admits, Bool.and_eq_true] at h ⊢
  exact ⟨sqlPred_mono t a1 a2 hm hpl hph hpw c h.1, pyPred_mono t a1 a2 hy c h.2⟩

/-- C3: along each consecutive pair of ladder steps, admission at the
narrower step implies admission at the wider step, and (ignoring the
`candidate_limit` truncation) each step's candidate set is contained in the
next one's. -/
theorem C3_relaxation_monotone :
    (∀ (t : TargetCtx) (c : Row) (a1 a2 : Attempt),
      (a1, a2) ∈ relaxationAttempts.zip relaxationAttempts.tail →
      admits t a1 c = true → admits t a2 c = true) ∧
    (∀ (db : List Row) (t : TargetCtx) (a1 a2 : Attempt),
      (a1, a2) ∈ relaxationAttempts.zip relaxationAttempts.tail →
      ∀ r ∈ relaxedSet db t a1, r ∈ relaxedSet db t a2) := by
  have key : ∀ (t : TargetCtx) (c : Row) (a1 a2 : Attempt),
      (a1, a2) ∈ relaxationAttempts.zip relaxationAttempts.tail →
      admits t a1 c = true → admits t a2 c = true := by
    intro t c a1 a2 hmem h
    simp only [relaxationAttempts, List.tail_cons, List.zip_cons_cons,
      List.zip_nil_right, List.mem_cons, List.not_mem_nil, or_false,
      Prod.mk.injEq] at hmem
    rcases hmem with ⟨ha1, ha2⟩ | ⟨ha1, ha2⟩ | ⟨ha1, ha2⟩ | ⟨ha1, ha2⟩ <;>
      subst ha1 <;> subst ha2 <;>
      exact admits_mono t _ _ (by norm_num) (by norm_num) (by norm_num)
        (by norm_num) (by norm_num) c h
  refine ⟨key, ?_⟩
  intro db t a1 a2 hmem r hr
  rw [relaxedSet, List.mem_filter] at hr ⊢
  exact ⟨hr.1, key t r a1 a2 hmem hr.2⟩

/-- Target context and row for the C3 witness: no numeric locks, a year lock
of 2020. -/
def ctxC3 : TargetCtx :=
  { vid := "t3", tmake := "m", tmodel := "mdl", bodyRaw := none,
    fuelRaw := none, transRaw := none, tcolor := none, tprice := none,
    tmileage := none, tpower := none, tyear := some 2020 }

/-- Row admitted by the strict step of `ctxC3`. -/
def rowC3 : Row :=
  { vehicleId := "c3", make := some "m", model := some "mdl",
    firstRegistrationRaw := some "2021-06-01" }

/-- Witness for C3: a row admitted at the strict step is admitted at
`relaxed_year`. -/
theorem C3_witness :
    admits ctxC3
      { name := "relaxed_year", yearTol := 3, mileageTol := 0.5,
        priceMin := 0.6, priceMax := 1.4, powerTol := 0.15 } rowC3 = true :=
  C3_relaxation_monotone.1 ctxC3 rowC3
    { name := "strict", yearTol := 2, mileageTol := 0.5,
      priceMin := 0.6, priceMax := 1.4, powerTol := 0.15 }
    { name := "relaxed_year", yearTol := 3, mileageTol := 0.5,
      priceMin := 0.6, priceMax := 1.4, powerTol := 0.15 }
    (by simp [relaxationAttempts]) (by decide)

/-! ## C1 — progressive relaxation retrieval -/

/-- Placeholder attempt for safe list indexing. -/
def dfltAttempt : Attempt :=
  { name := "", yearTol := 0, mileageTol := 0, priceMin := 0, priceMax := 0,
    powerTol := 0 }

/-- The loop returns at the first attempt whose kept row count reaches
`min_results`, with that attempt's rows, its name, no warning and no error,
the logs closing at that attempt. -/
theorem retrieveLoop_first (db : List Row) (t : TargetCtx) (L minR : ℕ) :
    ∀ (as : List Attempt) (i : ℕ) (best : Option (List Row × String))
      (logs : List (String × ℕ)), i < as.length →
      (∀ j, j < i → (stepRows db t L (as.getD j dfltAttempt)).length < minR) →
      minR ≤ (stepRows db t L (as.getD i dfltAttempt)).length →
      retrieveLoop db t L minR as best logs =
        (stepRows db t L (as.getD i dfltAttempt),
         ⟨some (as.getD i dfltAttempt).name,
          logs ++ (as.take (i + 1)).map
            (fun a => (a.name, (stepRows db t L a).length)),
          false, false, false⟩) := by
  intro as
  induction as with
  | nil =>
    intro i best logs hi
    exact absurd hi (Nat.not_lt_zero i)
  | cons a rest ih =>
    intro i best logs hi hfirst hsucc
    cases i with
    | zero =>
      simp only [List.getD_cons_zero] at hsucc ⊢
      simp only [retrieveLoop]
      rw [if_pos hsucc]
      simp [List.take_succ_cons]
    | succ i =>
      have h0 : (stepRows db t L a).length < minR := by
        have := hfirst 0 (Nat.succ_pos i)
        simpa using this
      simp only [retrieveLoop]
      rw [if_neg (not_le.mpr h0)]
      rw [ih i (bestStep db t L best a)
        (logs ++ [(a.name, (stepRows db t L a).length)])
        (by simpa using Nat.lt_of_succ_lt_succ hi)
        (fun j hj => by simpa using hfirst (j + 1) (Nat.succ_lt_succ hj))
        (by simpa using hsucc)]
      simp [List.take_succ_cons]

/-- When no attempt in the list reaches `min_results`, the loop reduces to its
terminal clause on the folded best tracker, the logs covering every
attempt. -/
theorem retrieveLoop_none (db : List Row) (t : TargetCtx) (L minR : ℕ) :
    ∀ (as : List Attempt) (best : Option (List Row × String))
      (logs : List (String × ℕ)),
      (∀ a ∈ as, (stepRows db t L a).length < minR) →
      retrieveLoop db t L minR as best logs =
        retrieveLoop db t L minR [] (as.foldl (bestStep db t L) best)
          (logs ++ as.map fun a => (a.name, (stepRows db t L a).length)) := by
  intro as
  induction as with
  | nil =>
    intro best logs _
    simp
  | cons a rest ih =>
    intro best logs h
    have h0 := h a (List.mem_cons_self a rest)
    simp only [retrieveLoop]
    rw [if_neg (not_le.mpr h0)]
    rw [ih (bestStep db t L best a) (logs ++ [(a.name, (stepRows db t L a).length)])
      (fun x hx => h x (List.mem_cons_of_mem a hx))]
    simp only [List.foldl_cons, List.map_cons, List.append_assoc,
      List.singleton_append]
    rfl

/-- The folded best tracker starting from a seed yields an entry of maximal
kept count among the seed and all traversed attempts, of the shape
`(stepRows a, a.name)` unless it is the seed itself. -/
theorem foldl_bestStep (db : List Row) (t : TargetCtx) (L : ℕ) :
    ∀ (as : List Attempt) (b : List Row × String),
      ∃ res : List Row × String,
        as.foldl (bestStep db t L) (some b) = some res ∧
        (res = b ∨ ∃ a ∈ as, res = (stepRows db t L a, a.name)) ∧
        b.1.length ≤ res.1.length ∧
        ∀ a ∈ as, (stepRows db t L a).length ≤ res.1.length := by
  intro as
  induction as with
  | nil =>
    intro b
    exact ⟨b, rfl, Or.inl rfl, le_refl _, fun a ha => absurd ha (List.not_mem_nil a)⟩
  | cons a rest ih =>
    intro b
    have hstep : bestStep db t L (some b) a =
        some (if b.1.length < (stepRows db t L a).length
          then (stepRows db t L a, a.name) else b) := by
      simp only [bestStep]
      by_cases hc : b.1.length < (stepRows db t L a).length
      · rw [if_pos hc, if_pos hc]
      · rw [if_neg hc, if_neg hc]
    by_cases hc : b.1.length < (stepRows db t L a).length
    · obtain ⟨res, he, hor, hge, hall⟩ := ih (stepRows db t L a, a.name)
      refine ⟨res, ?_, ?_, ?_, ?_⟩
      · rw [List.foldl_cons, hstep, if_pos hc]
        exact he
      · rcases hor with h | ⟨x, hx, hres⟩
        · exact Or.inr ⟨a, List.mem_cons_self a rest, h⟩
        · exact Or.inr ⟨x, List.mem_cons_of_mem a hx, hres⟩
      · exact le_trans (le_of_lt hc) hge
      · intro x hx
        rcases List.mem_cons.mp hx with rfl | hx2
        · exact hge
        · exact hall x hx2
    · obtain ⟨res, he, hor, hge, hall⟩ := ih b
      refine ⟨res, ?_, ?_, hge, ?_⟩
      · rw [List.foldl_cons, hstep, if_neg hc]
        exact he
      · rcases hor with h | ⟨x, hx, hres⟩
        · exact Or.inl h
        · exact Or.inr ⟨x, List.mem_cons_of_mem a hx, hres⟩
      · intro x hx
        rcases List.mem_cons.mp hx with rfl | hx2
        · exact le_trans (not_lt.mp hc) hge
        · exact hall x hx2

/-- Terminal clause of the loop on an exhausted ladder. -/
theorem retrieveLoop_nil (db : List Row) (t : TargetCtx) (L minR : ℕ)
    (r : List Row) (n : String) (logs : List (String × ℕ)) :
    retrieveLoop db t L minR [] (some (r, n)) logs =
      if 0 < r.length then (r, ⟨some n, logs, true, false, false⟩)
      else ([], ⟨none, logs, false, false, true⟩) := by
  simp only [retrieveLoop]

/-- C1: the ladder runs the five tabulated configurations in order; each kept
row passed the Python-side colour and year filters; the result is the first
step reaching `min_results` (with its rows, name and logs, no warning, no
error); when no step reaches it the result is a best-populated step's rows
with the warning flag when nonempty; and the not-found error is reported
exactly when every step kept zero rows. -/
theorem C1_progressive_relaxation :
    (relaxationAttempts.map
        (fun a => (a.name, a.yearTol, a.mileageTol, a.priceMin, a.priceMax, a.powerTol)) =
      [("strict", 2, 0.5, 0.6, 1.4, 0.15),
       ("relaxed_year", 3, 0.5, 0.6, 1.4, 0.15),
       ("relaxed_mileage", 3, 0.75, 0.6, 1.4, 0.15),
       ("relaxed_price", 3, 0.75, 0.5, 1.5, 0.15),
       ("relaxed_power", 3, 0.75, 0.5, 1.5, 0.25)]) ∧
    (∀ (db : List Row) (t : TargetCtx) (L : ℕ) (a : Attempt) (r : Row),
      r ∈ stepRows db t L a →
      (∀ tc, effColorLock t = some tc → normalizeColor r.color = some tc) ∧
      (∀ ty, t.tyear = some ty → ty ≠ 0 →
        ∃ cy, extractYear r.firstRegistrationRaw = some cy ∧
          ((cy : ℤ) - ty).natAbs ≤ a.yearTol)) ∧
    (∀ (db : List Row) (R : Row) (ty : Option ℕ) (L minR : ℕ) (t : TargetCtx),
      1 ≤ minR → mkTargetCtx R ty = some t →
      ((∀ i, i < 5 →
          (∀ j, j < i →
            (stepRows db t L (relaxationAttempts.getD j dfltAttempt)).length < minR) →
          minR ≤ (stepRows db t L (relaxationAttempts.getD i dfltAttempt)).length →
          findCandidateRows db R ty L minR =
            (stepRows db t L (relaxationAttempts.getD i dfltAttempt),
             ⟨some (relaxationAttempts.getD i dfltAttempt).name,
              (relaxationAttempts.take (i + 1)).map
                (fun a => (a.name, (stepRows db t L a).length)),
              false, false, false⟩)) ∧
       ((∀ i, i < 5 →
          (stepRows db t L (relaxationAttempts.getD i dfltAttempt)).length < minR) →
          ∃ i, i < 5 ∧
            (findCandidateRows db R ty L minR).1 =
              stepRows db t L (relaxationAttempts.getD i dfltAttempt) ∧
            (∀ j, j < 5 →
              (stepRows db t L (relaxationAttempts.getD j dfltAttempt)).length ≤
                (stepRows db t L (relaxationAttempts.getD i dfltAttempt)).length) ∧
            (0 < (stepRows db t L (relaxationAttempts.getD i dfltAttempt)).length →
              (findCandidateRows db R ty L minR).2.selectedAttempt =
                some (relaxationAttempts.getD i dfltAttempt).name ∧
              (findCandidateRows db R ty L minR).2.warningFlag = true) ∧
            ((findCandidateRows db R ty L minR).2.errorNoCandidates = true ↔
              (stepRows db t L (relaxationAttempts.getD i dfltAttempt)).length = 0)) ∧
       ((findCandidateRows db R ty L minR).2.errorNoCandidates = true ↔
          ∀ i, i < 5 →
            (stepRows db t L (relaxationAttempts.getD i dfltAttempt)).length = 0))) := by
  refine ⟨rfl, ?_, ?_⟩
  · intro db t L a r hr
    have hpy : pyPred t a r = true := (List.mem_filter.mp hr).2
    unfold pyPred at hpy
    simp only [Bool.and_eq_true] at hpy
    constructor
    · intro tc htc
      have h1 := hpy.1
      rw [htc] at h1
      simpa using h1
    · intro ty hty h0
      have h2 := hpy.2
      rw [hty] at h2
      simp only at h2
      rw [if_neg h0] at h2
      cases hcy : extractYear r.firstRegistrationRaw with
      | none => rw [hcy] at h2; exact absurd h2 (by simp)
      | some cy =>
        rw [hcy] at h2
        simp only [decide_eq_true_eq] at h2
        exact ⟨cy, rfl, h2⟩
  · intro db R ty L minR t hmin hctx
    have hfind : findCandidateRows db R ty L minR =
        retrieveLoop db t L minR relaxationAttempts none [] := by
      unfold findCandidateRows
      rw [hctx]
    have hA : ∀ i, i < 5 →
        (∀ j, j < i →
          (stepRows db t L (relaxationAttempts.getD j dfltAttempt)).length < minR) →
        minR ≤ (stepRows db t L (relaxationAttempts.getD i dfltAttempt)).length →
        findCandidateRows db R ty L minR =
          (stepRows db t L (relaxationAttempts.getD i dfltAttempt),
           ⟨some (relaxationAttempts.getD i dfltAttempt).name,
            (relaxationAttempts.take (i + 1)).map
              (fun a => (a.name, (stepRows db t L a).length)),
            false, false, false⟩) := by
      intro i hi hfirst hsucc
      rw [hfind,
        retrieveLoop_first db t L minR relaxationAttempts i none []
          (show i < relaxationAttempts.length from hi) hfirst hsucc]
      simp
    have hB : (∀ i, i < 5 →
        (stepRows db t L (relaxationAttempts.getD i dfltAttempt)).length < minR) →
        ∃ i, i < 5 ∧
          (findCandidateRows db R ty L minR).1 =
            stepRows db t L (relaxationAttempts.getD i dfltAttempt) ∧
          (∀ j, j < 5 →
            (stepRows db t L (relaxationAttempts.getD j dfltAttempt)).length ≤
              (stepRows db t L (relaxationAttempts.getD i dfltAttempt)).length) ∧
          (0 < (stepRows db t L (relaxationAttempts.getD i dfltAttempt)).length →
            (findCandidateRows db R ty L minR).2.selectedAttempt =
              some (relaxationAttempts.getD i dfltAttempt).name ∧
            (findCandidateRows db R ty L minR).2.warningFlag = true) ∧
          ((findCandidateRows db R ty L minR).2.errorNoCandidates = true ↔
            (stepRows db t L (relaxationAttempts.getD i dfltAttempt)).length = 0) := by
      intro hall
      have hmem : ∀ a ∈ relaxationAttempts, (stepRows db t L a).length < minR := by
        intro a ha
        obtain ⟨i, hilen, hia⟩ := List.mem_iff_getElem.mp ha
        have := hall i (show i < 5 from hilen)
        rw [List.getD_eq_getElem relaxationAttempts dfltAttempt hilen, hia] at this
        exact this
      have hfold : relaxationAttempts.foldl (bestStep db t L) none =
          (relaxationAttempts.tail).foldl (bestStep db t L)
            (some (stepRows db t L (relaxationAttempts.getD 0 dfltAttempt),
              (relaxationAttempts.getD 0 dfltAttempt).name)) := rfl
      obtain ⟨res, he, hor, hge, hall2⟩ :=
        foldl_bestStep db t L relaxationAttempts.tail
          (stepRows db t L (relaxationAttempts.getD 0 dfltAttempt),
            (relaxationAttempts.getD 0 dfltAttempt).name)
      have hshape : ∃ aM ∈ relaxationAttempts, res = (stepRows db t L aM, aM.name) := by
        rcases hor with h | ⟨x, hx, hres⟩
        · exact ⟨relaxationAttempts.getD 0 dfltAttempt,
            List.mem_cons_self _ _, h⟩
        · exact ⟨x, List.mem_cons_of_mem _ hx, hres⟩
      obtain ⟨aM, haM, hres⟩ := hshape
      obtain ⟨i, hilen, hia⟩ := List.mem_iff_getElem.mp haM
      have hgetD : relaxationAttempts.getD i dfltAttempt = aM := by
        rw [List.getD_eq_getElem relaxationAttempts dfltAttempt hilen, hia]
      have hloop : findCandidateRows db R ty L minR =
          (if 0 < (stepRows db t L aM).length
           then (stepRows db t L aM,
             ⟨some aM.name,
              relaxationAttempts.map (fun a => (a.name, (stepRows db t L a).length)),
              true, false, false⟩)
           else ([],
             ⟨none,
              relaxationAttempts.map (fun a => (a.name, (stepRows db t L a).length)),
              false, false, true⟩)) := by
        rw [hfind, retrieveLoop_none db t L minR relaxationAttempts none [] hmem,
          hfold, he, hres, retrieveLoop_nil]
        simp
      have hmax : ∀ j, j < 5 →
          (stepRows db t L (relaxationAttempts.getD j dfltAttempt)).length ≤
            (stepRows db t L aM).length := by
        intro j hj
        have hres1 : (stepRows db t L aM).length = res.1.length := by rw [hres]
        rw [hres1]
        cases j with
        | zero => exact hge
        | succ j =>
          refine hall2 (relaxationAttempts.getD (j + 1) dfltAttempt) ?_
          have hj4 : j < 4 := by omega
          interval_cases j
          · exact List.mem_cons_self _ _
          · exact List.mem_cons_of_mem _ (List.mem_cons_self _ _)
          · exact List.mem_cons_of_mem _ (List.mem_cons_of_mem _ (List.mem_cons_self _ _))
          · exact List.mem_cons_of_mem _ (List.mem_cons_of_mem _
              (List.mem_cons_of_mem _ (List.mem_cons_self _ _)))
      refine ⟨i, (show i < 5 from hilen), ?_, ?_, ?_, ?_⟩
      · rw [hgetD, hloop]
        by_cases hpos : 0 < (stepRows db t L aM).length
        · rw [if_pos hpos]
        · rw [if_neg hpos]
          have : (stepRows db t L aM).length = 0 := Nat.eq_zero_of_not_pos hpos
          exact (List.length_eq_zero.mp this).symm
      · rw [hgetD]; exact hmax
      · intro hpos
        rw [hgetD] at hpos
        rw [hloop, if_pos hpos, hgetD]
        exact ⟨rfl, rfl⟩
      · rw [hgetD, hloop]
        by_cases hpos : 0 < (stepRows db t L aM).length
        · rw [if_pos hpos]
          simp [Nat.pos_iff_ne_zero.mp hpos]
        · rw [if_neg hpos]
          simp [Nat.eq_zero_of_not_pos hpos]
    refine ⟨hA, hB, ?_⟩
    constructor
    · intro herr
      by_cases hex : ∀ i, i < 5 →
          (stepRows db t L (relaxationAttempts.getD i dfltAttempt)).length < minR
      · obtain ⟨i, hi5, _, hmax, _, hiff⟩ := hB hex
        have hzero := hiff.mp herr
        intro j hj
        exact Nat.le_zero.mp (hzero ▸ hmax j hj)
      · push_neg at hex
        obtain ⟨i0, hi05, hge0⟩ := hex
        have hP : ∃ n, n < 5 ∧
            minR ≤ (stepRows db t L (relaxationAttempts.getD n dfltAttempt)).length :=
          ⟨i0, hi05, hge0⟩
        have hfirstmin := Nat.find_spec hP
        have hsel := hA (Nat.find hP) hfirstmin.1
          (fun j hj => by
            have hj5 : j < 5 := lt_trans hj hfirstmin.1
            have := Nat.find_min hP hj
            push_neg at this
            exact this hj5)
          hfirstmin.2
        rw [hsel] at herr
        exact absurd herr (by simp)
    · intro hzero
      have hall : ∀ i, i < 5 →
          (stepRows db t L (relaxationAttempts.getD i dfltAttempt)).length < minR := by
        intro i hi
        rw [hzero i hi]
        exact hmin
      obtain ⟨i, hi5, _, _, _, hiff⟩ := hB hall
      exact hiff.mpr (hzero i hi5)

/-- The target context extracted from `rowT`. -/
def ctxT : TargetCtx :=
  { vid := "t0", tmake := "volkswagen", tmodel := "golf", bodyRaw := none,
    fuelRaw := none, transRaw := none, tcolor := none, tprice := none,
    tmileage := none, tpower := none, tyear := none }

/-- Witness for C1: on the two-row sample table with `min_results = 1` the
strict step succeeds immediately. -/
theorem C1_witness :
    findCandidateRows sampleDb rowT none 400 1 =
      (stepRows sampleDb ctxT 400 (relaxationAttempts.getD 0 dfltAttempt),
       ⟨some (relaxationAttempts.getD 0 dfltAttempt).name,
        (relaxationAttempts.take 1).map
          (fun a => (a.name, (stepRows sampleDb ctxT 400 a).length)),
        false, false, false⟩) :=
  (C1_progressive_relaxation.2.2 sampleDb rowT none 400 1 ctxT (by decide)
      (by decide)).1 0 (by norm_num)
    (fun j hj => absurd hj (Nat.not_lt_zero j)) (by decide)

/-- Membership from a successful association-list lookup. -/
theorem lookup_mem_pair {α β : Type} [BEq α] [LawfulBEq α] :
    ∀ (l : List (α × β)) (k : α) (v : β), List.lookup k l = some v → (k, v) ∈ l := by
  intro l
  induction l with
  | nil => intro k v h; simp [List.lookup] at h
  | cons p rest ih =>
    intro k v h
    obtain ⟨pk, pv⟩ := p
    simp only [List.lookup] at h
    cases hbeq : k == pk with
    | true =>
      simp only [hbeq] at h
      have hk : k = pk := eq_of_beq hbeq
      subst hk
      cases h
      exact List.mem_cons_self _ _
    | false =>
      simp only [hbeq] at h
      exact List.mem_cons_of_mem _ (ih k v h)

/-- Values of the accent table are accent-free. -/
theorem accent_value_clean : ∀ p ∈ accentPairs, List.lookup p.2 accentPairs = none := by
  decide

/-- Values of the lower-case table are accent-free and lower-case. -/
theorem lower_value_clean : ∀ p ∈ lowerPairs,
    List.lookup p.2 accentPairs = none ∧ List.lookup p.2 lowerPairs = none := by
  decide

/-- Accent stripping is idempotent on characters. -/
theorem charStrip_fixed (c : Char) : charStrip (charStrip c) = charStrip c := by
  unfold charStrip
  cases h : List.lookup c accentPairs with
  | none => simp [h]
  | some v =>
    have hv := lookup_mem_pair accentPairs c v h
    have h2 := accent_value_clean (c, v) hv
    simp [h, h2]

/-- The composite `charLower (charStrip c)` is a fixed point of both maps. -/
theorem charCombined_clean (c : Char) :
    charStrip (charLower (charStrip c)) = charLower (charStrip c) ∧
    charLower (charLower (charStrip c)) = charLower (charStrip c) := by
  cases h : List.lookup (charStrip c) lowerPairs with
  | none =>
    have hl : charLower (charStrip c) = charStrip c := by unfold charLower; simp [h]
    rw [hl]
    exact ⟨charStrip_fixed c, hl⟩
  | some v =>
    have hv := lookup_mem_pair lowerPairs (charStrip c) v h
    obtain ⟨h2a, h2l⟩ := lower_value_clean (charStrip c, v) hv
    have hl : charLower (charStrip c) = v := by unfold charLower; simp [h]
    rw [hl]
    constructor
    · unfold charStrip; simp [h2a]
    · unfold charLower; simp [h2l]

/-- Words produced by `wordsAux` are nonempty and whitespace-free. -/
theorem wordsAux_good : ∀ (l acc : List Char), (∀ c ∈ acc, isWs c = false) →
    ∀ w ∈ wordsAux l acc, w ≠ [] ∧ ∀ c ∈ w, isWs c = false := by
  intro l
  induction l with
  | nil =>
    intro acc hacc w hw
    cases acc with
    | nil => simp [wordsAux] at hw
    | cons a t =>
      simp [wordsAux] at hw
      subst hw
      refine ⟨by simp, ?_⟩
      intro c hc
      exact hacc c (List.mem_reverse.mp (by simpa using hc))
  | cons c rest ih =>
    intro acc hacc w hw
    by_cases hc : isWs c = true
    · cases acc with
      | nil =>
        simp [wordsAux, hc] at hw
        exact ih [] (by intro x hx; exact absurd hx (List.not_mem_nil x)) w hw
      | cons a t =>
        simp [wordsAux, hc] at hw
        rcases hw with rfl | hw
        · refine ⟨by simp, ?_⟩
          intro x hx
          exact hacc x (List.mem_reverse.mp (by simpa using hx))
        · exact ih [] (by intro x hx; exact absurd hx (List.not_mem_nil x)) w hw
    · have hc' : isWs c = false := by revert hc; cases isWs c <;> simp
      simp [wordsAux, hc'] at hw
      refine ih (c :: acc) ?_ w hw
      intro x hx
      rcases List.mem_cons.mp hx with rfl | hx'
      · exact hc'
      · exact hacc x hx'

/-- Prepending a whitespace-free word to the input shifts it into the
accumulator. -/
theorem wordsAux_append : ∀ (w l acc : List Char), (∀ c ∈ w, isWs c = false) →
    wordsAux (w ++ l) acc = wordsAux l (w.reverse ++ acc) := by
  intro w
  induction w with
  | nil => intro l acc _; simp
  | cons c w' ih =>
    intro l acc hw
    have hc : isWs c = false := hw c (List.mem_cons_self c w')
    rw [List.cons_append]
    rw [show wordsAux (c :: (w' ++ l)) acc = wordsAux (w' ++ l) (c :: acc) from by
      simp [wordsAux, hc]]
    rw [ih l (c :: acc) (fun x hx => hw x (List.mem_cons_of_mem c hx))]
    simp

/-- Splitting the empty input with a nonempty accumulator emits that word. -/
theorem wordsAux_nil_cons (a : Char) (t : List Char) :
    wordsAux [] (a :: t) = [(a :: t).reverse] := by
  simp [wordsAux]

/-- A whitespace head with a nonempty accumulator emits the word and
restarts. -/
theorem wordsAux_ws_cons (c : Char) (hc : isWs c = true) (rest : List Char)
    (a : Char) (t : List Char) :
    wordsAux (c :: rest) (a :: t) = (a :: t).reverse :: wordsAux rest [] := by
  simp [wordsAux, hc]

/-- Splitting a single-space join of good words recovers the words. -/
theorem wordsAux_join : ∀ ws : List (List Char),
    (∀ w ∈ ws, w ≠ [] ∧ ∀ c ∈ w, isWs c = false) →
    wordsAux (joinWords ws) [] = ws := by
  intro ws
  induction ws with
  | nil => intro _; rfl
  | cons w ws' ih =>
    intro h
    obtain ⟨hw, hwc⟩ := h w (List.mem_cons_self w ws')
    cases ws' with
    | nil =>
      have h2 := wordsAux_append w [] [] hwc
      rw [List.append_nil, List.append_nil] at h2
      show wordsAux (joinWords [w]) [] = [w]
      rw [show joinWords [w] = w from rfl, h2]
      cases hwr : w.reverse with
      | nil => exact absurd (List.reverse_eq_nil_iff.mp hwr) hw
      | cons a t =>
        rw [wordsAux_nil_cons, ← hwr, List.reverse_reverse]
    | cons w2 ws'' =>
      show wordsAux (joinWords (w :: w2 :: ws'')) [] = w :: w2 :: ws''
      rw [show joinWords (w :: w2 :: ws'') = w ++ ' ' :: joinWords (w2 :: ws'') from rfl,
        wordsAux_append w _ [] hwc, List.append_nil]
      cases hwr : w.reverse with
      | nil => exact absurd (List.reverse_eq_nil_iff.mp hwr) hw
      | cons a t =>
        rw [wordsAux_ws_cons ' ' (by decide) _ a t, ← hwr, List.reverse_reverse,
          ih (fun x hx => h x (List.mem_cons_of_mem w hx))]

/-- Characters of any produced word come from the input or the
accumulator. -/
theorem wordsAux_chars : ∀ (l acc w : List Char), w ∈ wordsAux l acc →
    ∀ c ∈ w, c ∈ l ∨ c ∈ acc := by
  intro l
  induction l with
  | nil =>
    intro acc w hw c hc
    cases acc with
    | nil => simp [wordsAux] at hw
    | cons a t =>
      simp [wordsAux] at hw
      subst hw
      exact Or.inr (List.mem_reverse.mp (by simpa using hc))
  | cons d rest ih =>
    intro acc w hw c hc
    by_cases hd : isWs d = true
    · cases acc with
      | nil =>
        simp [wordsAux, hd] at hw
        rcases ih [] w hw c hc with h | h
        · exact Or.inl (List.mem_cons_of_mem d h)
        · exact absurd h (List.not_mem_nil c)
      | cons a t =>
        simp [wordsAux, hd] at hw
        rcases hw with rfl | hw
        · exact Or.inr (List.mem_reverse.mp (by simpa using hc))
        · rcases ih [] w hw c hc with h | h
          · exact Or.inl (List.mem_cons_of_mem d h)
          · exact absurd h (List.not_mem_nil c)
    · have hd' : isWs d = false := by revert hd; cases isWs d <;> simp
      simp [wordsAux, hd'] at hw
      rcases ih (d :: acc) w hw c hc with h | h
      · exact Or.inl (List.mem_cons_of_mem d h)
      · rcases List.mem_cons.mp h with rfl | h'
        · exact Or.inl (List.mem_cons_self c rest)
        · exact Or.inr h'

/-- Characters of a join come from one of the words or are the joining
space. -/
theorem joinWords_chars : ∀ (ws : List (List Char)) (c : Char), c ∈ joinWords ws →
    (∃ w ∈ ws, c ∈ w) ∨ c = ' ' := by
  intro ws
  induction ws with
  | nil => intro c hc; simp [joinWords] at hc
  | cons w ws' ih =>
    intro c hc
    cases ws' with
    | nil =>
      rw [show joinWords [w] = w from rfl] at hc
      exact Or.inl ⟨w, List.mem_cons_self w [], hc⟩
    | cons w2 ws'' =>
      rw [show joinWords (w :: w2 :: ws'') = w ++ ' ' :: joinWords (w2 :: ws'') from
        rfl] at hc
      rcases List.mem_append.mp hc with h | h
      · exact Or.inl ⟨w, List.mem_cons_self w _, h⟩
      · rcases List.mem_cons.mp h with rfl | h'
        · exact Or.inr rfl
        · rcases ih c h' with ⟨w', hw', hcw⟩ | h''
          · exact Or.inl ⟨w', List.mem_cons_of_mem w hw', hcw⟩
          · exact Or.inr h''

/-- The head of a join of good words is not whitespace. -/
theorem joinWords_head : ∀ (w : List Char) (ws : List (List Char)),
    (∀ u ∈ w :: ws, u ≠ [] ∧ ∀ c ∈ u, isWs c = false) →
    ∃ a t, joinWords (w :: ws) = a :: t ∧ isWs a = false := by
  intro w ws h
  obtain ⟨hw, hwc⟩ := h w (List.mem_cons_self w ws)
  cases w with
  | nil => exact absurd rfl hw
  | cons b u =>
    cases ws with
    | nil =>
      exact ⟨b, u, rfl, hwc b (List.mem_cons_self b u)⟩
    | cons w2 ws'' =>
      exact ⟨b, u ++ ' ' :: joinWords (w2 :: ws''), rfl,
        hwc b (List.mem_cons_self b u)⟩

/-- The last character of a join of good words is not whitespace. -/
theorem joinWords_last : ∀ (w : List Char) (ws : List (List Char)),
    (∀ u ∈ w :: ws, u ≠ [] ∧ ∀ c ∈ u, isWs c = false) →
    ∃ a t, (joinWords (w :: ws)).reverse = a :: t ∧ isWs a = false := by
  intro w ws
  induction ws generalizing w with
  | nil =>
    intro h
    obtain ⟨hw, hwc⟩ := h w (List.mem_cons_self w [])
    cases hwr : w.reverse with
    | nil => exact absurd (List.reverse_eq_nil_iff.mp hwr) hw
    | cons a t =>
      refine ⟨a, t, hwr, ?_⟩
      exact hwc a (List.mem_reverse.mp (hwr ▸ List.mem_cons_self a t))
  | cons w2 ws'' ih =>
    intro h
    obtain ⟨a, t, ha, hna⟩ := ih w2 (fun u hu => h u (List.mem_cons_of_mem w hu))
    refine ⟨a, t ++ ' ' :: w.reverse, ?_, hna⟩
    rw [show joinWords (w :: w2 :: ws'') = w ++ ' ' :: joinWords (w2 :: ws'') from rfl,
      List.reverse_append, List.reverse_cons, ha]
    simp

/-- Joins of good words are strip-fixed. -/
theorem trim_of_good : ∀ ws : List (List Char),
    (∀ w ∈ ws, w ≠ [] ∧ ∀ c ∈ w, isWs c = false) →
    trimChars (joinWords ws) = joinWords ws := by
  intro ws h
  cases ws with
  | nil => rfl
  | cons w ws' =>
    obtain ⟨a, t, ha, hna⟩ := joinWords_head w ws' h
    obtain ⟨b, u, hb, hnb⟩ := joinWords_last w ws' h
    have h1 : (joinWords (w :: ws')).dropWhile isWs = joinWords (w :: ws') := by
      rw [ha, List.dropWhile_cons, if_neg (by simp [hna])]
    unfold trimChars
    rw [h1, hb, List.dropWhile_cons, if_neg (by simp [hnb]), ← hb,
      List.reverse_reverse]

/-- Mapping a function that fixes every element is the identity. -/
theorem map_fixed {α : Type} (f : α → α) : ∀ l : List α, (∀ c ∈ l, f c = c) →
    l.map f = l := by
  intro l
  induction l with
  | nil => intro _; rfl
  | cons a t ih =>
    intro h
    rw [List.map_cons, h a (List.mem_cons_self a t),
      ih (fun c hc => h c (List.mem_cons_of_mem a hc))]

/-- Collapsing whitespace is idempotent. -/
theorem collapseWs_of_collapsed (l : List Char) :
    collapseWs (collapseWs l) = collapseWs l := by
  have hgood := wordsAux_good l [] (fun c hc => absurd hc (List.not_mem_nil c))
  show joinWords (wordsAux (joinWords (wordsAux l [])) []) = joinWords (wordsAux l [])
  rw [wordsAux_join (wordsAux l []) hgood]

/-- Collapsed strings are strip-fixed. -/
theorem trim_collapseWs (l : List Char) : trimChars (collapseWs l) = collapseWs l :=
  trim_of_good (wordsAux l []) (wordsAux_good l [] (fun c hc =>
    absurd hc (List.not_mem_nil c)))

/-- Every character of a colour key is accent-fixed, lower-fixed and not a
hyphen. -/
theorem colorKey_chars_clean (s : String) :
    ∀ c ∈ (colorKey s).data, charStrip c = c ∧ charLower c = c ∧ c ≠ '-' := by
  intro c hc
  have hsp : charStrip ' ' = ' ' ∧ charLower ' ' = ' ' ∧ (' ' : Char) ≠ '-' := by
    decide
  simp only [colorKey, collapseWs] at hc
  rcases joinWords_chars _ c hc with ⟨w, hw, hcw⟩ | rfl
  · rcases wordsAux_chars _ [] w hw c hcw with hbase | habs
    · simp only [replaceDash] at hbase
      rcases List.mem_map.mp hbase with ⟨b, hb, hbc⟩
      by_cases hbd : b = '-'
      · rw [if_pos hbd] at hbc
        rw [← hbc]
        exact hsp
      · rw [if_neg hbd] at hbc
        subst hbc
        rcases List.mem_map.mp hb with ⟨a, _, hab⟩
        subst hab
        rcases List.mem_map.mp ‹a ∈ _› with ⟨a0, _, ha0⟩
        subst ha0
        exact ⟨(charCombined_clean a0).1, (charCombined_clean a0).2, hbd⟩
    · exact absurd habs (List.not_mem_nil c)
  · exact hsp

/-- The colour-key pipeline is idempotent. -/
theorem colorKey_of_colorKey (s : String) : colorKey (colorKey s) = colorKey s := by
  have hclean := colorKey_chars_clean s
  have h1 : (colorKey s).data.map charStrip = (colorKey s).data :=
    map_fixed charStrip _ (fun c hc => (hclean c hc).1)
  have h2 : (colorKey s).data.map charLower = (colorKey s).data :=
    map_fixed charLower _ (fun c hc => (hclean c hc).2.1)
  have h3 : replaceDash (colorKey s).data = (colorKey s).data :=
    map_fixed (fun c => if c = '-' then ' ' else c) _
      (fun c hc => if_neg (hclean c hc).2.2)
  show (⟨collapseWs (replaceDash (((colorKey s).data.map charStrip).map charLower))⟩ :
    String) = colorKey s
  rw [h1, h2, h3]
  have h4 : collapseWs (colorKey s).data = (colorKey s).data :=
    collapseWs_of_collapsed (replaceDash ((s.data.map charStrip).map charLower))
  rw [h4]

/-- Colour keys are Python-strip fixed. -/
theorem pyStrip_colorKey (s : String) : pyStrip (colorKey s) = colorKey s := by
  show (⟨trimChars (colorKey s).data⟩ : String) = colorKey s
  have h : trimChars (colorKey s).data = (colorKey s).data :=
    trim_collapseWs (replaceDash ((s.data.map charStrip).map charLower))
  rw [h]

/-- A successful part lookup returns a value of the canonical colour
table. -/
theorem partLookup_mem : ∀ (ps : List (List Char)) (c : String),
    partLookup ps = some c → ∃ k, (k, c) ∈ COLOR_CANONICAL_MAP := by
  intro ps
  induction ps with
  | nil => intro c h; simp [partLookup] at h
  | cons p rest ih =>
    intro c h
    simp only [partLookup] at h
    by_cases he : (trimChars p).isEmpty = true
    · rw [if_pos he] at h
      exact ih c h
    · rw [if_neg he] at h
      cases hl : List.lookup (⟨trimChars p⟩ : String) COLOR_CANONICAL_MAP with
      | some c' =>
        simp only [hl, Option.some.injEq] at h
        subst h
        exact ⟨_, lookup_mem_pair _ _ _ hl⟩
      | none =>
        simp only [hl] at h
        exact ih c h

/-- A successful keyword scan returns a key of the keyword table. -/
theorem keywordScanGo_mem : ∀ (m : List (String × List String)) (lowered : List Char)
    (c : String), keywordScanGo lowered m = some c → ∃ kws, (c, kws) ∈ m := by
  intro m
  induction m with
  | nil => intro lowered c h; simp [keywordScanGo] at h
  | cons p rest ih =>
    intro lowered c h
    obtain ⟨canon, kws⟩ := p
    simp only [keywordScanGo] at h
    by_cases ha : (kws.any (fun k => subOccurs k.data lowered)) = true
    · rw [if_pos ha] at h
      cases h
      exact ⟨kws, List.mem_cons_self _ _⟩
    · rw [if_neg ha] at h
      obtain ⟨kws', hm⟩ := ih lowered c h
      exact ⟨kws', List.mem_cons_of_mem _ hm⟩

unseal partsAux in
/-- Every value of the canonical colour table is a fixed point of
`normalizeColor`. -/
theorem canon_value_fixed : ∀ p ∈ COLOR_CANONICAL_MAP,
    normalizeColor (some p.2) = some p.2 := by
  decide

unseal partsAux in
/-- Every key of the keyword table is a fixed point of `normalizeColor`. -/
theorem keyword_key_fixed : ∀ p ∈ COLOR_KEYWORD_MAP,
    normalizeColor (some p.1) = some p.1 := by
  decide

/-- When all three table branches miss, the literal fallback is itself a
fixed point as long as it is nonempty. -/
theorem colorKey_fallback_fixed (text : String)
    (hc : List.lookup (colorKey text) COLOR_CANONICAL_MAP = none)
    (hp : partLookup (partsAux (colorKey text).data []) = none)
    (hk : keywordScan (colorKey text).data = none)
    (hne : colorKey text ≠ "") :
    normalizeColor (some (colorKey text)) = some (colorKey text) := by
  have hNT : normalizeText (some (colorKey text)) = some (colorKey text) := by
    simp only [normalizeText, pyStrip_colorKey]
    rw [if_neg hne]
  have hCK : colorKey (colorKey text) = colorKey text := colorKey_of_colorKey text
  simp only [normalizeColor, hNT, hCK, hc, hp, hk]

/-- Every nonempty output of `normalizeColor` is a fixed point. -/
theorem normalizeColor_output_fixed : ∀ (x : Option String) (y : String),
    normalizeColor x = some y → y ≠ "" →
    normalizeColor (some y) = some y := by
  intro x y hx hy
  cases hv : normalizeText x with
  | none =>
    simp only [normalizeColor, hv] at hx
    exact Option.noConfusion hx
  | some text =>
    simp only [normalizeColor, hv] at hx
    cases hc : List.lookup (colorKey text) COLOR_CANONICAL_MAP with
    | some c =>
      simp only [hc, Option.some.injEq] at hx
      subst hx
      exact canon_value_fixed (colorKey text, c) (lookup_mem_pair _ _ _ hc)
    | none =>
      simp only [hc] at hx
      cases hp : partLookup (partsAux (colorKey text).data []) with
      | some c =>
        simp only [hp, Option.some.injEq] at hx
        subst hx
        obtain ⟨k, hkm⟩ := partLookup_mem _ c hp
        exact canon_value_fixed (k, c) hkm
      | none =>
        simp only [hp] at hx
        cases hk : keywordScan (colorKey text).data with
        | some c =>
          simp only [hk, Option.some.injEq] at hx
          subst hx
          obtain ⟨kws, hkm⟩ := keywordScanGo_mem _ _ c hk
          exact keyword_key_fixed (c, kws) hkm
        | none =>
          simp only [hk, Option.some.injEq] at hx
          subst hx
          exact colorKey_fallback_fixed text hc hp hk hy

unseal partsAux in
/-- Refutation of C10 as stated: `normalize_color` is not idempotent.  On
the input `"-"` the first pass returns the empty string (the hyphen becomes
a space and the whitespace collapse erases it), but a second pass maps the
empty string to `None`. -/
theorem C10_counterexample :
    normalizeColor (some "-") = some "" ∧
    normalizeColor (normalizeColor (some "-")) ≠ normalizeColor (some "-") := by
  decide

/-- Amended C10: away from the empty-string output, `normalize_color` is
idempotent — every canonical value, keyword key and nonempty literal
fallback is a fixed point; only the output `""` (reachable, e.g. from
`"-"`) is mapped to `None` by a second pass. -/
theorem C10_amended : ∀ x : Option String, normalizeColor x ≠ some "" →
    normalizeColor (normalizeColor x) = normalizeColor x := by
  intro x hx
  cases h : normalizeColor x with
  | none => rfl
  | some y =>
    have hy : y ≠ "" := by
      intro he
      exact hx (he ▸ h)
    exact normalizeColor_output_fixed x y h hy

/-- Witness for the amended C10 at the concrete input `"white"`. -/
theorem C10_witness :
    normalizeColor (some "white") ≠ some "" ∧
    normalizeColor (normalizeColor (some "white")) = normalizeColor (some "white") :=
  ⟨by decide, C10_amended (some "white") (by decide)⟩

end Carma
